import Mathlib

/-!
Verification development for the QAMExporter core algorithms.

The Python source is embedded shallowly:
* Python floats are modelled as exact rationals; the structural claims
  settled here do not depend on IEEE rounding of intermediate arithmetic.
* Python ints are modelled as Int (they are arbitrary precision).
* fallible operations (struct packing range errors, attribute errors,
  truncated streams) are modelled with Option.
-/

namespace QAMExporter

/-- Model of utils.eq: absolute difference at most 0.000001. -/
def pyEqTol (v1 v2 : ℚ) : Bool := decide (|v1 - v2| ≤ 1/1000000)

/-- Model of utils.is0. -/
def pyIs0 (v : ℚ) : Bool := pyEqTol v 0

/-- Model of utils.is1. -/
def pyIs1 (v : ℚ) : Bool := pyEqTol v 1

/-- Rounding to the nearest integer, ties to even; the rounding mode used by
the Python built-in round. -/
def roundHalfEven (q : ℚ) : ℤ :=
  let f := ⌊q⌋
  let r := q - f
  if r < 1/2 then f
  else if 1/2 < r then f + 1
  else if f % 2 = 0 then f else f + 1

/-- Model of utils.limitFloatPrecision: round(x, 6), decimal rounding with
ties to even (the binary re-rounding of the Python float result is not
modelled; all claim-relevant values are exact). -/
def pyRound6 (q : ℚ) : ℚ := (roundHalfEven (q * 1000000) : ℚ) / 1000000

/-- Model of the Python int() conversion on a float: truncation toward zero. -/
def pyTrunc (q : ℚ) : ℤ := if 0 ≤ q then ⌊q⌋ else ⌈q⌉

/-! ## Bone groups (exporter.py, ExportQAM.Group) -/

/-- Model of ExportQAM.Group: the admitted bone-index set and the capacity
(field names set and max in the source). -/
structure Group where
  set : Finset ℕ
  max : ℕ
deriving DecidableEq

/-- Model of Group.hasVert: every bone index of the vertex is already in the
group set.  A vertex is passed as its blendWeights list of
(bone index, weight) pairs, which is the only field hasVert reads. -/
def hasVert (g : Group) (bw : List (ℕ × ℚ)) : Bool :=
  bw.all (fun p => decide (p.1 ∈ g.set))

/-- Model of Group.addVert.  Returns the Python return value together with
the state of the group after the call (the source mutates in place). -/
def addVert (g : Group) (bw : List (ℕ × ℚ)) : Bool × Group :=
  if g.max ≤ g.set.card then (hasVert g bw, g)
  else if g.max ≤ g.set.card + (bw.filter (fun p => decide (p.1 ∉ g.set))).length
  then (false, g)
  else (true, ⟨bw.foldl (fun s p => insert p.1 s) g.set, g.max⟩)

lemma foldl_insert_eq (bw : List (ℕ × ℚ)) (s : Finset ℕ) :
    bw.foldl (fun s p => insert p.1 s) s = s ∪ (bw.map Prod.fst).toFinset := by
  induction bw generalizing s with
  | nil => simp
  | cons a t ih =>
      simp only [List.foldl_cons, ih, List.map_cons, List.toFinset_cons]
      ext x
      simp only [Finset.mem_union, Finset.mem_insert]
      tauto

lemma filter_not_mem_length (bw : List (ℕ × ℚ)) (s : Finset ℕ)
    (h : (bw.map Prod.fst).Nodup) :
    (bw.filter (fun p => decide (p.1 ∉ s))).length
      = ((bw.map Prod.fst).toFinset \ s).card := by
  induction bw with
  | nil => simp
  | cons a t ih =>
      simp only [List.map_cons, List.nodup_cons] at h
      obtain ⟨ha, ht⟩ := h
      by_cases hmem : a.1 ∈ s
      · rw [List.filter_cons_of_neg (by simp [hmem])]
        rw [ih ht]
        simp only [List.map_cons, List.toFinset_cons]
        rw [Finset.insert_sdiff_of_mem _ hmem]
      · rw [List.filter_cons_of_pos (by simp [hmem])]
        simp only [List.length_cons, ih ht, List.map_cons, List.toFinset_cons]
        rw [Finset.insert_sdiff_of_not_mem _ hmem,
          Finset.card_insert_of_not_mem (by
            simp only [Finset.mem_sdiff, List.mem_toFinset]
            exact fun hc => ha hc.1)]

lemma hasVert_eq_subset (g : Group) (bw : List (ℕ × ℚ)) :
    hasVert g bw = decide ((bw.map Prod.fst).toFinset ⊆ g.set) := by
  rw [Bool.eq_iff_iff]
  simp only [hasVert, List.all_eq_true, decide_eq_true_eq, Finset.subset_iff,
    List.mem_toFinset, List.mem_map]
  constructor
  · rintro h x ⟨p, hp, rfl⟩
    exact h p hp
  · intro h p hp
    exact h ⟨p, hp, rfl⟩

/-- C3 (counterexample): the claim asserts that admit merges and returns true
whenever the size of current union required is at most the capacity.  For the
empty group of capacity 2 and a vertex requiring bones 1 and 2, the union has
size 2 which is at most 2, yet addVert returns false and leaves the group
unchanged: the code merges only when the union stays strictly below the
capacity. -/
theorem c3_counterexample :
    ((((∅ : Finset ℕ))
        ∪ (([((1:ℕ), (1:ℚ)), (2, 1)].map Prod.fst).toFinset)).card ≤ 2)
      ∧ addVert ⟨∅, 2⟩ [(1, 1), (2, 1)] = (false, ⟨∅, 2⟩) := by
  constructor
  · decide
  · rfl

/-- C3 (amended): addVert merges the required bone set R into the group and
returns true when the size of (current union R) is strictly below the
capacity; when the group is already at or over capacity it returns true if
and only if R is a subset of the current set, without mutating; in every
other case it returns false and leaves the set unchanged.  Stated for a
vertex whose listed bone indices are distinct (as produced by setGroups). -/
theorem c3_addVert (g : Group) (bw : List (ℕ × ℚ))
    (hnd : (bw.map Prod.fst).Nodup) :
    (g.max ≤ g.set.card →
      addVert g bw = (decide ((bw.map Prod.fst).toFinset ⊆ g.set), g))
    ∧ (g.set.card < g.max →
        (g.set ∪ (bw.map Prod.fst).toFinset).card < g.max →
        addVert g bw
          = (true, ⟨g.set ∪ (bw.map Prod.fst).toFinset, g.max⟩))
    ∧ (g.set.card < g.max →
        g.max ≤ (g.set ∪ (bw.map Prod.fst).toFinset).card →
        addVert g bw = (false, g)) := by
  have hcard : g.set.card + (bw.filter (fun p => decide (p.1 ∉ g.set))).length
      = (g.set ∪ (bw.map Prod.fst).toFinset).card := by
    rw [filter_not_mem_length bw g.set hnd]
    rw [Finset.union_comm]
    rw [← Finset.card_sdiff_add_card]
    omega
  refine ⟨fun hfull => ?_, fun hroom hlt => ?_, fun hroom hge => ?_⟩
  · rw [addVert, if_pos hfull, hasVert_eq_subset]
  · rw [addVert, if_neg (by omega)]
    simp only [hcard]
    rw [if_neg (by omega), foldl_insert_eq]
  · rw [addVert, if_neg (by omega)]
    simp only [hcard]
    rw [if_pos hge]

/-- Witness for c3_addVert at a concrete input: the empty group of capacity 3
admits a vertex requiring only bone 1. -/
theorem c3_addVert_witness :
    addVert ⟨∅, 3⟩ [((1:ℕ), (1:ℚ))]
      = (true, ⟨(∅ : Finset ℕ) ∪ ([((1:ℕ), (1:ℚ))].map Prod.fst).toFinset, 3⟩) :=
  (c3_addVert ⟨∅, 3⟩ [(1, 1)] (by decide)).2.1 (by decide) (by decide)

/-! ## Polygon partitioning (exporter.py, ExportQAM.splitVertices) -/

/-- Model of ExportQAM.WrappedVertex restricted to the field splitVertices
reads: the filtered blendWeights pairs. -/
structure WVertex where
  blendWeights : List (ℕ × ℚ)
deriving DecidableEq

/-- Model of a Blender polygon as splitVertices consumes it: its material
index and the vertex indices reached through its loops (the loop indirection
of the source, poly.loop_indices composed with blMesh.loops[].vertex_index,
is flattened into one list). -/
structure Polygon where
  materialIndex : ℕ
  verts : List ℕ
deriving DecidableEq

/-- Model of the local function addPolyToGroup: admit the polygon vertices
one by one, stopping at the first rejection; the group keeps the bones merged
by the vertices admitted before the rejection (as the in-place mutation of
the source does). -/
def addPolyToGroup (vertices : List WVertex) (g : Group) :
    List ℕ → Bool × Group
  | [] => (true, g)
  | i :: rest =>
      match addVert g ((vertices.getD i ⟨[]⟩).blendWeights) with
      | (true, g2) => addPolyToGroup vertices g2 rest
      | (false, g2) => (false, g2)

/-- Model of the local function tryAddPoly: first-fit over the existing
groups in creation order, threading the state of every attempted group. -/
def tryAddPoly (vertices : List WVertex) (poly : Polygon) :
    List Group → Option ℕ × List Group
  | [] => (none, [])
  | g :: rest =>
      match addPolyToGroup vertices g poly.verts with
      | (true, g2) => (some 0, g2 :: rest)
      | (false, g2) =>
          match tryAddPoly vertices poly rest with
          | (r, rest2) => (r.map (· + 1), g2 :: rest2)

/-- One iteration of the polygon loop of ExportQAM.splitVertices. -/
def splitStep (vertices : List WVertex) (maxBones : ℕ) (m : ℕ)
    (st : List Group × List ℤ) (poly : Polygon) : List Group × List ℤ :=
  if poly.materialIndex = m then
    match tryAddPoly vertices poly st.1 with
    | (some i, gs) => (gs, st.2 ++ [(i : ℤ)])
    | (none, gs) =>
        let r := addPolyToGroup vertices ⟨∅, maxBones⟩ poly.verts
        (gs ++ [r.2], st.2 ++ [(gs.length : ℤ)])
  else (st.1, st.2 ++ [(-1 : ℤ)])

/-- Model of ExportQAM.splitVertices.  Returns the group list and the
polygonsGroup assignment array (initialised with -1 in the source). -/
def splitVertices (polys : List Polygon) (m : ℕ) (vertices : List WVertex)
    (maxBones : ℕ) : List Group × List ℤ :=
  polys.foldl (splitStep vertices maxBones m) ([], [])

lemma addVert_invariant (g : Group) (bw : List (ℕ × ℚ))
    (h : g.set.card ≤ g.max) :
    (addVert g bw).2.set.card ≤ g.max ∧ (addVert g bw).2.max = g.max := by
  rw [addVert]
  split
  · exact ⟨h, rfl⟩
  · split
    · exact ⟨h, rfl⟩
    · rename_i hfull hmiss
      refine ⟨?_, rfl⟩
      rw [foldl_insert_eq]
      show (g.set ∪ (bw.map Prod.fst).toFinset).card ≤ g.max
      have hle : ((bw.map Prod.fst).toFinset \ g.set).card
          ≤ (bw.filter (fun p => decide (p.1 ∉ g.set))).length := by
        have heq : ((bw.filter (fun p => decide (p.1 ∉ g.set))).map Prod.fst).toFinset
            = (bw.map Prod.fst).toFinset \ g.set := by
          ext x
          simp only [List.mem_toFinset, List.mem_map, List.mem_filter,
            Finset.mem_sdiff, decide_eq_true_eq]
          constructor
          · rintro ⟨p, ⟨hp, hps⟩, rfl⟩
            exact ⟨⟨p, hp, rfl⟩, hps⟩
          · rintro ⟨⟨p, hp, rfl⟩, hps⟩
            exact ⟨p, ⟨hp, hps⟩, rfl⟩
        calc ((bw.map Prod.fst).toFinset \ g.set).card
            = ((bw.filter (fun p => decide (p.1 ∉ g.set))).map Prod.fst).toFinset.card := by
              rw [heq]
          _ ≤ ((bw.filter (fun p => decide (p.1 ∉ g.set))).map Prod.fst).length :=
              List.toFinset_card_le _
          _ = _ := List.length_map _ _
      have hun : (g.set ∪ (bw.map Prod.fst).toFinset).card
          ≤ g.set.card + ((bw.map Prod.fst).toFinset \ g.set).card := by
        rw [Finset.union_comm, ← Finset.card_sdiff_add_card]
        omega
      omega

lemma addPolyToGroup_invariant (vertices : List WVertex) (vs : List ℕ)
    (g : Group) (h : g.set.card ≤ g.max) :
    (addPolyToGroup vertices g vs).2.set.card ≤ g.max
      ∧ (addPolyToGroup vertices g vs).2.max = g.max := by
  induction vs generalizing g with
  | nil => exact ⟨h, rfl⟩
  | cons i rest ih =>
      have h1 := addVert_invariant g ((vertices.getD i ⟨[]⟩).blendWeights) h
      rw [addPolyToGroup]
      rcases hr : addVert g ((vertices.getD i ⟨[]⟩).blendWeights) with ⟨b, g2⟩
      rw [hr] at h1
      rcases b with _ | _
      · exact h1
      · simp only []
        have := ih g2 (by rw [h1.2]; exact h1.1)
        rw [h1.2] at this
        exact this

lemma tryAddPoly_length (vertices : List WVertex) (poly : Polygon)
    (gs : List Group) :
    (tryAddPoly vertices poly gs).2.length = gs.length := by
  induction gs with
  | nil => rfl
  | cons g rest ih =>
      rw [tryAddPoly]
      rcases hr : addPolyToGroup vertices g poly.verts with ⟨b, g2⟩
      rcases b with _ | _
      · rcases hq : tryAddPoly vertices poly rest with ⟨r, rest2⟩
        rw [hq] at ih
        simpa using ih
      · simp

lemma tryAddPoly_some_lt (vertices : List WVertex) (poly : Polygon)
    (gs : List Group) (i : ℕ)
    (h : (tryAddPoly vertices poly gs).1 = some i) : i < gs.length := by
  induction gs generalizing i with
  | nil => simp [tryAddPoly] at h
  | cons g rest ih =>
      rw [tryAddPoly] at h
      rcases hr : addPolyToGroup vertices g poly.verts with ⟨b, g2⟩
      rw [hr] at h
      rcases b with _ | _
      · rcases hq : tryAddPoly vertices poly rest with ⟨r, rest2⟩
        rw [hq] at h ih
        simp only [Option.map_eq_some'] at h
        obtain ⟨j, hj, rfl⟩ := h
        have := ih j hj
        simp only [List.length_cons]
        omega
      · simp only [Option.some.injEq] at h
        subst h
        simp

lemma tryAddPoly_invariant (vertices : List WVertex) (poly : Polygon)
    (gs : List Group) (cap : ℕ)
    (h : ∀ g ∈ gs, g.set.card ≤ cap ∧ g.max = cap) :
    ∀ g ∈ (tryAddPoly vertices poly gs).2,
      g.set.card ≤ cap ∧ g.max = cap := by
  induction gs with
  | nil => simp [tryAddPoly]
  | cons g rest ih =>
      have hg := h g (by simp)
      have hrest : ∀ g ∈ rest, g.set.card ≤ cap ∧ g.max = cap :=
        fun g hgm => h g (by simp [hgm])
      have hnew := addPolyToGroup_invariant vertices poly.verts g
        (by rw [hg.2]; exact hg.1)
      have hnewcap : (addPolyToGroup vertices g poly.verts).2.set.card ≤ cap
          ∧ (addPolyToGroup vertices g poly.verts).2.max = cap :=
        ⟨by rw [← hg.2]; exact hnew.1, by rw [hnew.2]; exact hg.2⟩
      rw [tryAddPoly]
      rcases hr : addPolyToGroup vertices g poly.verts with ⟨b, g2⟩
      rw [hr] at hnewcap
      rcases b with _ | _
      · rcases hq : tryAddPoly vertices poly rest with ⟨r, rest2⟩
        intro g' hg'
        rcases List.mem_cons.mp hg' with rfl | hmem
        · exact hnewcap
        · rw [hq] at ih
          exact ih hrest g' hmem
      · intro g' hg'
        rcases List.mem_cons.mp hg' with rfl | hmem
        · exact hnewcap
        · exact hrest g' hmem

lemma splitStep_spec (vertices : List WVertex) (maxBones m : ℕ)
    (st : List Group × List ℤ) (poly : Polygon)
    (hinv : ∀ g ∈ st.1, g.set.card ≤ maxBones ∧ g.max = maxBones) :
    ∃ e : ℤ,
      (splitStep vertices maxBones m st poly).2 = st.2 ++ [e]
      ∧ st.1.length ≤ (splitStep vertices maxBones m st poly).1.length
      ∧ (∀ g ∈ (splitStep vertices maxBones m st poly).1,
          g.set.card ≤ maxBones ∧ g.max = maxBones)
      ∧ (poly.materialIndex = m →
          0 ≤ e ∧ e < ((splitStep vertices maxBones m st poly).1.length : ℤ))
      ∧ (poly.materialIndex ≠ m → e = -1) := by
  rw [splitStep]
  by_cases hm : poly.materialIndex = m
  · rw [if_pos hm]
    rcases ht : tryAddPoly vertices poly st.1 with ⟨r, gs⟩
    have hlen : gs.length = st.1.length := by
      have := tryAddPoly_length vertices poly st.1
      rw [ht] at this
      exact this
    have hginv : ∀ g ∈ gs, g.set.card ≤ maxBones ∧ g.max = maxBones := by
      have := tryAddPoly_invariant vertices poly st.1 maxBones hinv
      rw [ht] at this
      exact this
    rcases r with _ | i
    · refine ⟨(gs.length : ℤ), rfl, by simp [hlen], ?_, ?_, fun hne => absurd hm hne⟩
      · intro g hg
        rcases List.mem_append.mp hg with hmem | hmem
        · exact hginv g hmem
        · have hnew := addPolyToGroup_invariant vertices poly.verts
            ⟨∅, maxBones⟩ (by simp)
          simp only [List.mem_singleton] at hmem
          subst hmem
          exact hnew
      · intro _
        constructor
        · positivity
        · simp only [List.length_append, List.length_singleton]
          exact_mod_cast Nat.lt_succ_self gs.length
    · have hi : i < st.1.length := by
        have := tryAddPoly_some_lt vertices poly st.1 i
        rw [ht] at this
        exact this rfl
      refine ⟨(i : ℤ), rfl, by simp [hlen], hginv, ?_, fun hne => absurd hm hne⟩
      intro _
      exact ⟨by positivity, by exact_mod_cast hlen ▸ hi⟩
  · rw [if_neg hm]
    exact ⟨-1, rfl, le_refl _, hinv, fun hc => absurd hc hm, fun _ => rfl⟩

lemma splitVertices_go (vertices : List WVertex) (maxBones m : ℕ) :
    ∀ (polys : List Polygon) (st : List Group × List ℤ),
    (∀ g ∈ st.1, g.set.card ≤ maxBones ∧ g.max = maxBones) →
    (polys.foldl (splitStep vertices maxBones m) st).2.length
        = st.2.length + polys.length
    ∧ (∀ g ∈ (polys.foldl (splitStep vertices maxBones m) st).1,
        g.set.card ≤ maxBones ∧ g.max = maxBones)
    ∧ st.1.length ≤ (polys.foldl (splitStep vertices maxBones m) st).1.length
    ∧ (∀ j < st.2.length,
        (polys.foldl (splitStep vertices maxBones m) st).2.getD j 0
          = st.2.getD j 0)
    ∧ (∀ i (hi : i < polys.length),
        ((polys.get ⟨i, hi⟩).materialIndex = m →
          0 ≤ (polys.foldl (splitStep vertices maxBones m) st).2.getD
                (st.2.length + i) 0
          ∧ (polys.foldl (splitStep vertices maxBones m) st).2.getD
                (st.2.length + i) 0
              < ((polys.foldl (splitStep vertices maxBones m) st).1.length : ℤ))
        ∧ ((polys.get ⟨i, hi⟩).materialIndex ≠ m →
          (polys.foldl (splitStep vertices maxBones m) st).2.getD
              (st.2.length + i) 0 = -1)) := by
  intro polys
  induction polys with
  | nil =>
      intro st hinv
      exact ⟨by simp, hinv, le_refl _, fun j hj => rfl, fun i hi => absurd hi (by simp)⟩
  | cons poly t ih =>
      intro st hinv
      obtain ⟨e, he2, hlen1, hinv2, hyes, hno⟩ :=
        splitStep_spec vertices maxBones m st poly hinv
      have hfold : (poly :: t).foldl (splitStep vertices maxBones m) st
          = t.foldl (splitStep vertices maxBones m)
              (splitStep vertices maxBones m st poly) := rfl
      obtain ⟨A, B, C, D, E⟩ := ih (splitStep vertices maxBones m st poly) hinv2
      have hst2len : (splitStep vertices maxBones m st poly).2.length
          = st.2.length + 1 := by rw [he2]; simp
      refine ⟨?_, ?_, ?_, ?_, ?_⟩
      · rw [hfold, A, hst2len]
        simp [Nat.add_assoc, Nat.add_comm 1 t.length]
      · rw [hfold]
        exact B
      · rw [hfold]
        exact le_trans hlen1 C
      · intro j hj
        rw [hfold, D j (by omega), he2]
        exact List.getD_append _ _ _ _ (by omega)
      · intro i hi
        rcases i with _ | i2
        · have hidx : (t.foldl (splitStep vertices maxBones m)
              (splitStep vertices maxBones m st poly)).2.getD (st.2.length + 0) 0
              = e := by
            rw [Nat.add_zero, D st.2.length (by omega), he2]
            rw [List.getD_append_right _ _ _ _ (le_refl _)]
            simp
          constructor
          · intro hmat
            rw [hfold, hidx]
            have := hyes hmat
            refine ⟨this.1, lt_of_lt_of_le this.2 ?_⟩
            exact_mod_cast C
          · intro hmat
            rw [hfold, hidx]
            exact hno hmat
        · have hget : (poly :: t).get ⟨i2 + 1, hi⟩ = t.get ⟨i2, by
              simpa using Nat.lt_of_succ_lt_succ hi⟩ := rfl
          have hE := E i2 (by simpa using Nat.lt_of_succ_lt_succ hi)
          rw [hst2len] at hE
          have harith : st.2.length + 1 + i2 = st.2.length + (i2 + 1) := by omega
          rw [harith] at hE
          rw [hfold, hget]
          exact hE

/-- C4 (counterexample): the claim asserts that for each group the union of
the bone indices referenced by the vertices of its assigned polygons never
exceeds the group capacity.  With capacity 2 and a single triangle whose
three vertices require bones 1, 2 and 3, no group can accept the polygon, so
splitVertices force-assigns it to a freshly created group that only admitted
bone 1: the polygon is assigned to group 0 while its vertices reference the
three bones 1, 2, 3, exceeding the capacity 2. -/
theorem c4_counterexample :
    splitVertices [⟨0, [0, 1, 2]⟩] 0
        [⟨[(1, 1)]⟩, ⟨[(2, 1)]⟩, ⟨[(3, 1)]⟩] 2
      = ([⟨{1}, 2⟩], [0])
    ∧ 2 < (([0, 1, 2].flatMap (fun i =>
        (([⟨[(1, (1:ℚ))]⟩, ⟨[(2, 1)]⟩, ⟨[(3, 1)]⟩] :
            List WVertex).getD i ⟨[]⟩).blendWeights.map Prod.fst)).toFinset).card := by
  constructor
  · rfl
  · decide

/-- C4 (amended): after splitVertices, every polygon carrying the requested
material index is assigned exactly one group, whose index is valid in the
returned group list, and every other polygon stays at -1; each group is
created with the requested capacity and its admitted bone set never exceeds
that capacity.  (The union of the bones referenced by the polygons assigned
to a group can exceed the capacity only via the force-assignment of a
polygon no group could admit, as the counterexample shows.) -/
theorem c4_splitVertices (polys : List Polygon) (m : ℕ)
    (vertices : List WVertex) (maxBones : ℕ) :
    (splitVertices polys m vertices maxBones).2.length = polys.length
    ∧ (∀ g ∈ (splitVertices polys m vertices maxBones).1,
        g.set.card ≤ maxBones ∧ g.max = maxBones)
    ∧ (∀ i (hi : i < polys.length),
        ((polys.get ⟨i, hi⟩).materialIndex = m →
          0 ≤ (splitVertices polys m vertices maxBones).2.getD i 0
          ∧ (splitVertices polys m vertices maxBones).2.getD i 0
              < ((splitVertices polys m vertices maxBones).1.length : ℤ))
        ∧ ((polys.get ⟨i, hi⟩).materialIndex ≠ m →
          (splitVertices polys m vertices maxBones).2.getD i 0 = -1)) := by
  obtain ⟨A, B, _, _, E⟩ :=
    splitVertices_go vertices maxBones m polys ([], []) (by simp)
  refine ⟨by simpa [splitVertices] using A, B, fun i hi => ?_⟩
  have hE := E i hi
  simpa [splitVertices] using hE

/-- Witness for c4_splitVertices: a single one-bone triangle with matching
material receives a valid group index. -/
theorem c4_splitVertices_witness :
    0 ≤ (splitVertices [⟨0, [0]⟩] 0 [⟨[(1, 1)]⟩] 3).2.getD 0 0
    ∧ (splitVertices [⟨0, [0]⟩] 0 [⟨[(1, 1)]⟩] 3).2.getD 0 0
        < ((splitVertices [⟨0, [0]⟩] 0 [⟨[(1, 1)]⟩] 3).1.length : ℤ) :=
  ((c4_splitVertices [⟨0, [0]⟩] 0 [⟨[(1, 1)]⟩] 3).2.2 0 (by decide)).1 rfl

/-! ## Bone-weight finalization (exporter.py WrappedVertex.setGroups and
model.py Vertex.normalizeBlendWeight) -/

/-- Model of WrappedVertex.setGroups: drop near-zero weights, sort ascending
by weight and keep the first maxPerVert entries when over the limit, then
divide by the weight sum when that sum is not within 1e-6 of 1. -/
def setGroups (groups : List (ℕ × ℚ)) (maxPerVert : ℕ) : List (ℕ × ℚ) :=
  let filtered := groups.filter (fun p => !(pyIs0 p.2))
  let filtered2 :=
    if maxPerVert < filtered.length
    then (filtered.mergeSort (fun a b => decide (a.2 ≤ b.2))).take maxPerVert
    else filtered
  let s := (filtered2.map Prod.snd).sum
  if !(pyIs1 s) then filtered2.map (fun p => (p.1, p.2 / s)) else filtered2

/-- Model of Vertex.normalizeBlendWeight acting on the list of
(bone index, weight) pairs: the early return when the vertex has no bone
attributes corresponds to the empty list; otherwise every weight is divided
by the weight sum (unconditionally in the source) and the list is padded
with (0, 0) up to the next multiple of mod.  A mod of zero raises
ZeroDivisionError in the source; theorems assume 1 <= mod. -/
def normalizeBlendWeightPairs (pairs : List (ℕ × ℚ)) (mod : ℕ) :
    List (ℕ × ℚ) :=
  match pairs with
  | [] => []
  | _ =>
      pairs.map (fun p => (p.1, p.2 / (pairs.map Prod.snd).sum))
        ++ List.replicate
            (((pairs.length - 1) / mod) * mod + mod - pairs.length) (0, 0)

/-- Composition of the two finalization stages, applied to the raw
(bone index, weight) list of one vertex; the claim describes this pipeline. -/
def finalizeBoneWeights (groups : List (ℕ × ℚ)) (maxPerVert mod : ℕ) :
    List (ℕ × ℚ) :=
  normalizeBlendWeightPairs (setGroups groups maxPerVert) mod

lemma pyIs0_eq_false (v : ℚ) (h : 1/1000000 < |v|) : pyIs0 v = false := by
  rw [pyIs0, pyEqTol, decide_eq_false_iff_not, sub_zero]
  exact not_le.mpr h

lemma pyIs1_eq_true (v : ℚ) (h : |v - 1| ≤ 1/1000000) : pyIs1 v = true := by
  rw [pyIs1, pyEqTol, decide_eq_true_eq]
  exact h

lemma normalizeBlendWeightPairs_cons (a : ℕ × ℚ) (l : List (ℕ × ℚ))
    (mod : ℕ) :
    normalizeBlendWeightPairs (a :: l) mod
      = (a :: l).map (fun p => (p.1, p.2 / ((a :: l).map Prod.snd).sum))
        ++ List.replicate
            ((((a :: l).length - 1) / mod) * mod + mod - (a :: l).length)
            (0, 0) := rfl

lemma setGroups_length (groups : List (ℕ × ℚ)) (maxPerVert : ℕ) :
    (setGroups groups maxPerVert).length
      = min (groups.filter (fun p => !(pyIs0 p.2))).length maxPerVert := by
  simp only [setGroups]
  split
  · rename_i h
    split
    · rw [List.length_map, List.length_take,
        (List.mergeSort_perm _ _).length_eq]
      omega
    · rw [List.length_take, (List.mergeSort_perm _ _).length_eq]
      omega
  · rename_i h
    split
    · rw [List.length_map]
      omega
    · omega

lemma renorm_pos (l : List (ℕ × ℚ)) (hl : ∀ p ∈ l, 0 < p.2) :
    ∀ p ∈ (if !(pyIs1 ((l.map Prod.snd).sum))
        then l.map (fun p => (p.1, p.2 / (l.map Prod.snd).sum)) else l),
      0 < p.2 := by
  split
  · intro p hp
    rw [List.mem_map] at hp
    obtain ⟨q, hq, rfl⟩ := hp
    have hsum : 0 < (l.map Prod.snd).sum := by
      apply List.sum_pos
      · intro w hw2
        rw [List.mem_map] at hw2
        obtain ⟨q2, hq2, rfl⟩ := hw2
        exact hl q2 hq2
      · simp only [ne_eq, List.map_eq_nil_iff]
        intro hc
        rw [hc] at hq
        simp at hq
    exact div_pos (hl q hq) hsum
  · exact hl

lemma setGroups_pos (groups : List (ℕ × ℚ)) (maxPerVert : ℕ)
    (hw : ∀ p ∈ groups, 0 ≤ p.2) :
    ∀ p ∈ setGroups groups maxPerVert, 0 < p.2 := by
  have hf : ∀ p ∈ groups.filter (fun p => !(pyIs0 p.2)), 0 < p.2 := by
    intro p hp
    rw [List.mem_filter] at hp
    have h0 : ¬ (pyIs0 p.2 = true) := by simpa using hp.2
    have := hw p hp.1
    simp only [pyIs0, pyEqTol, decide_eq_true_eq, sub_zero] at h0
    rcases lt_or_eq_of_le this with h | h
    · exact h
    · exact absurd (by rw [← h]; norm_num) h0
  intro p hp
  simp only [setGroups] at hp
  split at hp
  · exact renorm_pos _ (fun q hq =>
      hf q ((List.mergeSort_perm _ _).mem_iff.mp (List.mem_of_mem_take hq)))
      p hp
  · exact renorm_pos _ hf p hp

lemma map_div_sum (l : List (ℕ × ℚ)) (s : ℚ) :
    ((l.map (fun p => (p.1, p.2 / s))).map Prod.snd).sum
      = (l.map Prod.snd).sum / s := by
  induction l with
  | nil => simp
  | cons a t ih =>
      simp only [List.map_cons, List.sum_cons, ih]
      ring

/-- C6 (counterexample): for the raw pairs [(1, 0.5), (2, 0.5000001)] whose
weight sum 1.0000001 deviates from 1 by only 1e-7 (within the 1e-6
tolerance), the claim predicts no renormalization, so the finalized list
should be the pair list padded with two (0, 0) entries.  The padding stage
of the code divides by the weight sum unconditionally, so the finalized
weights are 5000000/10000001 and 5000001/10000001 instead. -/
theorem c6_counterexample :
    |((1:ℚ)/2 + (5000001/10000000 : ℚ)) - 1| ≤ 1/1000000
    ∧ finalizeBoneWeights [(1, 1/2), (2, 5000001/10000000)] 8 4
        = [(1, 5000000/10000001), (2, 5000001/10000001), (0, 0), (0, 0)]
    ∧ finalizeBoneWeights [(1, 1/2), (2, 5000001/10000000)] 8 4
        ≠ [(1, 1/2), (2, 5000001/10000000), (0, 0), (0, 0)] := by
  have habs : |((1:ℚ)/2 + (5000001/10000000 : ℚ)) - 1| ≤ 1/1000000 := by
    rw [show ((1:ℚ)/2 + (5000001/10000000 : ℚ)) - 1 = 1/10000000 by norm_num,
      show |(1:ℚ)/10000000| = 1/10000000 from abs_of_nonneg (by norm_num)]
    norm_num
  have heval : finalizeBoneWeights [(1, 1/2), (2, 5000001/10000000)] 8 4
      = [(1, 5000000/10000001), (2, 5000001/10000001), (0, 0), (0, 0)] := by
    have h1 : pyIs0 ((1:ℚ)/2) = false := by
      apply pyIs0_eq_false
      rw [show |(1:ℚ)/2| = 1/2 from abs_of_nonneg (by norm_num)]
      norm_num
    have h2 : pyIs0 ((5000001:ℚ)/10000000) = false := by
      apply pyIs0_eq_false
      rw [show |(5000001:ℚ)/10000000| = 5000001/10000000 from
        abs_of_nonneg (by norm_num)]
      norm_num
    have hfilter : List.filter (fun p => !(pyIs0 p.2))
        [((1:ℕ), (1:ℚ)/2), (2, 5000001/10000000)]
        = [(1, 1/2), (2, 5000001/10000000)] := by
      simp only [List.filter_cons, List.filter_nil, h1, h2, Bool.not_false,
        if_true]
    have hsum : (List.map Prod.snd
        [((1:ℕ), (1:ℚ)/2), (2, 5000001/10000000)]).sum
        = 10000001/10000000 := by
      simp only [List.map_cons, List.map_nil, List.sum_cons, List.sum_nil]
      norm_num
    have h3 : pyIs1 ((10000001:ℚ)/10000000) = true := by
      apply pyIs1_eq_true
      rw [show (10000001:ℚ)/10000000 - 1 = 1/10000000 by norm_num,
        show |(1:ℚ)/10000000| = 1/10000000 from abs_of_nonneg (by norm_num)]
      norm_num
    have hsg : setGroups [(1, 1/2), (2, 5000001/10000000)] 8
        = [(1, 1/2), (2, 5000001/10000000)] := by
      norm_num [setGroups, hfilter, hsum, h3]
    rw [finalizeBoneWeights, hsg, normalizeBlendWeightPairs_cons, hsum]
    simp only [List.map_cons, List.map_nil, List.length_cons, List.length_nil]
    norm_num [List.replicate]
  refine ⟨habs, heval, ?_⟩
  rw [heval]
  intro hc
  injection hc with hhead _
  injection hhead with _ hb
  norm_num at hb

/-- C6 (amended): for nonnegative raw weights and mod, maxPerVertex at least
one, finalization drops the weights within 1e-6 of zero; if nothing remains
the result is empty, otherwise at most maxPerVertex pairs are kept (their
count is the minimum of the filtered length and maxPerVertex, and their bone
indices are exactly those produced by the drop/sort/truncate stage), the
kept weights always end up summing to exactly 1 (the truncation stage
renormalizes only when the sum deviates from 1 by more than 1e-6, but the
padding stage divides by the current sum unconditionally), and the list is
padded with (0, 0) entries so that its final length is a positive multiple
of mod. -/
theorem c6_finalizeBoneWeights (groups : List (ℕ × ℚ)) (maxPerVert mod : ℕ)
    (hmod : 1 ≤ mod) (hmax : 1 ≤ maxPerVert)
    (hw : ∀ p ∈ groups, 0 ≤ p.2) :
    ((groups.filter (fun p => !(pyIs0 p.2))) = [] →
      finalizeBoneWeights groups maxPerVert mod = [])
    ∧ ((groups.filter (fun p => !(pyIs0 p.2))) ≠ [] →
      (∃ k, 1 ≤ k
        ∧ (finalizeBoneWeights groups maxPerVert mod).length = k * mod)
      ∧ ((finalizeBoneWeights groups maxPerVert mod).map Prod.snd).sum = 1
      ∧ ((finalizeBoneWeights groups maxPerVert mod).take
            (min (groups.filter (fun p => !(pyIs0 p.2))).length maxPerVert)).map
              Prod.fst
          = (setGroups groups maxPerVert).map Prod.fst
      ∧ (finalizeBoneWeights groups maxPerVert mod).drop
            (min (groups.filter (fun p => !(pyIs0 p.2))).length maxPerVert)
          = List.replicate
              ((finalizeBoneWeights groups maxPerVert mod).length
                - min (groups.filter (fun p => !(pyIs0 p.2))).length maxPerVert)
              (0, 0)) := by
  constructor
  · intro hempty
    have hlen := setGroups_length groups maxPerVert
    rw [hempty] at hlen
    simp only [List.length_nil, Nat.zero_min] at hlen
    have hnil : setGroups groups maxPerVert = [] := List.length_eq_zero.mp hlen
    rw [finalizeBoneWeights, hnil]
    rfl
  · intro hne
    have hlen := setGroups_length groups maxPerVert
    have hKpos : 1 ≤ min (groups.filter (fun p => !(pyIs0 p.2))).length maxPerVert := by
      have : 1 ≤ (groups.filter (fun p => !(pyIs0 p.2))).length :=
        Nat.one_le_iff_ne_zero.mpr (by
          intro hc
          exact hne (List.length_eq_zero.mp hc))
      omega
    have hsgne : setGroups groups maxPerVert ≠ [] := by
      intro hc
      rw [hc] at hlen
      simp only [List.length_nil] at hlen
      omega
    obtain ⟨q0, qs, hq0⟩ : ∃ q0 qs, setGroups groups maxPerVert = q0 :: qs :=
      List.exists_cons_of_ne_nil hsgne
    have hpos := setGroups_pos groups maxPerVert hw
    have hsum_pos : 0 < ((setGroups groups maxPerVert).map Prod.snd).sum := by
      apply List.sum_pos
      · intro w hw2
        rw [List.mem_map] at hw2
        obtain ⟨q, hq, rfl⟩ := hw2
        exact hpos q hq
      · simp only [ne_eq, List.map_eq_nil_iff]
        exact hsgne
    have hnorm : finalizeBoneWeights groups maxPerVert mod
        = ((setGroups groups maxPerVert).map
            (fun p => (p.1, p.2 / ((setGroups groups maxPerVert).map Prod.snd).sum)))
          ++ List.replicate
              ((((setGroups groups maxPerVert).length - 1) / mod) * mod + mod
                - (setGroups groups maxPerVert).length) (0, 0) := by
      rw [finalizeBoneWeights, hq0]
      rfl
    have hdm : (((setGroups groups maxPerVert).length - 1) / mod) * mod
        ≤ (setGroups groups maxPerVert).length - 1 :=
      Nat.div_mul_le_self _ _
    have hmlt : (setGroups groups maxPerVert).length - 1
        < (((setGroups groups maxPerVert).length - 1) / mod) * mod + mod :=
      Nat.lt_div_mul_add (by omega)
    have hsglen1 : 1 ≤ (setGroups groups maxPerVert).length := by
      rw [hq0]
      simp
    have haddle : (setGroups groups maxPerVert).length
        ≤ (((setGroups groups maxPerVert).length - 1) / mod) * mod + mod := by
      omega
    have hlenfin : (finalizeBoneWeights groups maxPerVert mod).length
        = (((setGroups groups maxPerVert).length - 1) / mod) * mod + mod := by
      rw [hnorm]
      rw [List.length_append, List.length_map, List.length_replicate]
      omega
    refine ⟨?_, ?_, ?_, ?_⟩
    · refine ⟨((setGroups groups maxPerVert).length - 1) / mod + 1,
        Nat.le_add_left 1 _, ?_⟩
      rw [hlenfin, Nat.succ_mul]
    · rw [hnorm]
      rw [List.map_append, List.sum_append, map_div_sum]
      have hrep : ((List.replicate
          ((((setGroups groups maxPerVert).length - 1) / mod) * mod + mod
            - (setGroups groups maxPerVert).length)
          ((0 : ℕ), (0 : ℚ))).map Prod.snd).sum = 0 := by
        rw [List.map_replicate, List.sum_replicate]
        simp
      rw [hrep, add_zero, div_self (ne_of_gt hsum_pos)]
    · rw [hnorm, ← hlen]
      have hmaplen : (setGroups groups maxPerVert).length
          = ((setGroups groups maxPerVert).map
              (fun p => (p.1, p.2 / ((setGroups groups maxPerVert).map Prod.snd).sum))).length := by
        rw [List.length_map]
      rw [hmaplen, List.take_left, List.map_map]
      rfl
    · rw [hlenfin, hnorm, ← hlen]
      have hmaplen : (setGroups groups maxPerVert).length
          = ((setGroups groups maxPerVert).map
              (fun p => (p.1, p.2 / ((setGroups groups maxPerVert).map Prod.snd).sum))).length := by
        rw [List.length_map]
      rw [hmaplen, List.drop_left, ← hmaplen]

/-- Witness for c6_finalizeBoneWeights: a single full-weight bone padded to
four influences summing to one. -/
theorem c6_finalizeBoneWeights_witness :
    (([((3:ℕ), (1:ℚ))].filter (fun p => !(pyIs0 p.2))) ≠ []
    ∧ (∃ k, 1 ≤ k ∧ (finalizeBoneWeights [(3, 1)] 8 4).length = k * 4)) := by
  have h1 : pyIs0 (1:ℚ) = false := pyIs0_eq_false 1 (by
    rw [abs_one]
    norm_num)
  have hne : ([((3:ℕ), (1:ℚ))].filter (fun p => !(pyIs0 p.2))) ≠ [] := by
    simp only [List.filter_cons, List.filter_nil, h1, Bool.not_false, if_true]
    simp
  refine ⟨hne, ?_⟩
  exact (((c6_finalizeBoneWeights [(3, 1)] 8 4 (by omega) (by omega)
    (by
      intro p hp
      simp only [List.mem_singleton] at hp
      rw [hp]
      norm_num)).2) hne).1

/-! ## Vertex deduplication (model.py VertexAttribute, Vertex, Mesh) -/

/-- Python hash modulus for numeric types: 2^61 - 1. -/
def P61 : ℕ := 2305843009213693951

/-- Fueled-modular exponentiation, modelling the Python built-in
pow(b, e, m); the fuel only bounds the halving recursion. -/
def powModAux : ℕ → ℕ → ℕ → ℕ → ℕ
  | 0, _, _, m => 1 % m
  | fuel+1, b, e, m =>
      if e = 0 then 1 % m
      else
        let h := powModAux fuel b (e / 2) m
        if e % 2 = 0 then h * h % m else h * h % m * b % m

def powMod (b e m : ℕ) : ℕ := powModAux (e + 1) b e m

/-- Model of the CPython hash of a rational number (which is what the hash
of a float is defined as, see CPython pyhash.c): reduce numerator and the
modular inverse of the denominator modulo 2^61 - 1, negate for negative
values, and map -1 to -2. -/
def pyHashRat (q : ℚ) : ℤ :=
  let m := q.num.natAbs % P61
  let dinv := powMod (q.den % P61) (P61 - 2) P61
  let r := m * dinv % P61
  let h : ℤ := if q.num < 0 then -(r : ℤ) else (r : ℤ)
  if h = -1 then -2 else h

/-- Model of utils.hashList applied to a list of already-computed hashes:
the base-31 polynomial fold (Python ints do not overflow). -/
def hashFoldl (hs : List ℤ) : ℤ := hs.foldl (fun out h => 31 * out + h) 0

/-- Model of model.py VertexAttribute: a type id and the component list. -/
structure VertexAttribute where
  type : ℕ
  value : List ℚ
deriving DecidableEq

/-- Model of VertexAttribute.__init__, which applies limitPrecision to the
raw components. -/
def mkVertexAttribute (t : ℕ) (raw : List ℚ) : VertexAttribute :=
  ⟨t, raw.map pyRound6⟩

/-- Model of VertexAttribute.__hash__: 81 * type + hashList(value). -/
def attrHash (a : VertexAttribute) : ℤ :=
  81 * (a.type : ℤ) + hashFoldl (a.value.map pyHashRat)

/-- Model of model.py Vertex: the attribute list. -/
structure Vertex where
  attributes : List VertexAttribute
deriving DecidableEq

/-- Vertex built from raw (type, components) data through the canonicalizing
attribute constructor. -/
def mkVertex (data : List (ℕ × List ℚ)) : Vertex :=
  ⟨data.map (fun p => mkVertexAttribute p.1 p.2)⟩

/-- Model of Vertex.__hash__: hashList over the attribute hashes. -/
def vertexHash (v : Vertex) : ℤ := hashFoldl (v.attributes.map attrHash)

/-- Model of Vertex.__eq__: the source compares hash(self) == hash(another)
only; no componentwise comparison is performed. -/
def vertexEq (a b : Vertex) : Bool := vertexHash a == vertexHash b

/-- Model of the Mesh dedup state: the stored vertices and the
vertexIndices dict keyed by the vertex hash. -/
structure Mesh where
  vertices : List Vertex
  vertexIndices : List (ℤ × ℕ)
deriving DecidableEq

/-- Dict lookup by hash (Python dict get with default -1, expressed with
Option). -/
def lookupIdx (m : List (ℤ × ℕ)) (h : ℤ) : Option ℕ :=
  (m.find? (fun p => p.1 == h)).map Prod.snd

/-- Model of Mesh.addVertex: look the hash up; on a miss append the vertex
and record its index under the hash.  No equality fallback exists in the
source. -/
def addVertex (s : Mesh) (v : Vertex) : ℕ × Mesh :=
  match lookupIdx s.vertexIndices (vertexHash v) with
  | some idx => (idx, s)
  | none =>
      (s.vertices.length,
        ⟨s.vertices ++ [v],
          s.vertexIndices ++ [(vertexHash v, s.vertices.length)]⟩)

lemma powModAux_one (fuel e m : ℕ) : powModAux fuel 1 e m = 1 % m := by
  induction fuel generalizing e with
  | zero => rfl
  | succ f ih =>
      rw [powModAux]
      split
      · rfl
      · have hm : (1 % m) * (1 % m) % m = 1 % m := by
          rcases Nat.lt_or_ge m 2 with h | h
          · interval_cases m <;> rfl
          · have h1 : (1:ℕ) % m = 1 := Nat.mod_eq_of_lt (by omega)
            rw [h1, Nat.one_mul]
            exact h1
        rw [ih]
        split
        · show (1 % m) * (1 % m) % m = 1 % m
          exact hm
        · show (1 % m) * (1 % m) % m * 1 % m = 1 % m
          rw [hm, Nat.mul_one]
          exact Nat.mod_mod_of_dvd 1 dvd_rfl

lemma pyHashRat_nat (q : ℚ) (k : ℕ) (hnum : q.num = (k : ℤ)) (hden : q.den = 1)
    (hk : k < P61) : pyHashRat q = (k : ℤ) := by
  have hp1 : (1 : ℕ) % P61 = 1 := by norm_num [P61]
  have hdinv : powMod (q.den % P61) (P61 - 2) P61 = 1 := by
    rw [hden, hp1, powMod, powModAux_one, hp1]
  have habs : ((k : ℤ)).natAbs = k := Int.natAbs_ofNat k
  have hr : ((k : ℤ)).natAbs % P61 * powMod (q.den % P61) (P61 - 2) P61 % P61
      = k := by
    rw [hdinv, Nat.mul_one, habs, Nat.mod_eq_of_lt hk, Nat.mod_eq_of_lt hk]
  simp only [pyHashRat, hnum, hr]
  have hnn : ¬ ((k : ℤ) < 0) := by omega
  rw [if_neg hnn, if_neg (by omega)]

lemma lookupIdx_append_self (l : List (ℤ × ℕ)) (h : ℤ) (n : ℕ)
    (hl : lookupIdx l h = none) :
    lookupIdx (l ++ [(h, n)]) h = some n := by
  induction l with
  | nil => simp [lookupIdx, List.find?]
  | cons a t ih =>
      rcases hbe : (a.1 == h) with _ | _
      · rw [lookupIdx] at hl
        simp only [List.find?, hbe] at hl
        rw [lookupIdx, List.cons_append]
        simp only [List.find?, hbe]
        exact ih (by rw [lookupIdx]; exact hl)
      · rw [lookupIdx] at hl
        simp [List.find?, hbe] at hl

/-- C2 (amended): Mesh.addVertex deduplicates by hash alone.  If two
vertices have equal hashes then submitting the second right after the first
returns the same index, whatever their component values; and two raw
attribute lists that agree after canonicalization produce identical Vertex
values (hence the same index both times). -/
theorem c2_addVertex :
    (∀ (s : Mesh) (v1 v2 : Vertex), vertexHash v1 = vertexHash v2 →
      (addVertex (addVertex s v1).2 v2).1 = (addVertex s v1).1)
    ∧ (∀ d1 d2 : List (ℕ × List ℚ),
      d1.map (fun p => (p.1, p.2.map pyRound6))
        = d2.map (fun p => (p.1, p.2.map pyRound6)) →
      mkVertex d1 = mkVertex d2) := by
  constructor
  · intro s v1 v2 h
    cases hl : lookupIdx s.vertexIndices (vertexHash v1) with
    | some i =>
        have e1 : addVertex s v1 = (i, s) := by
          simp only [addVertex, hl]
        rw [e1]
        simp only [addVertex, ← h, hl]
    | none =>
        have e1 : addVertex s v1
            = (s.vertices.length,
                ⟨s.vertices ++ [v1],
                  s.vertexIndices ++ [(vertexHash v1, s.vertices.length)]⟩) := by
          simp only [addVertex, hl]
        rw [e1]
        simp only [addVertex, ← h, lookupIdx_append_self _ _ _ hl]
  · intro d1 d2 h
    have hmap : ∀ d : List (ℕ × List ℚ),
        d.map (fun p => mkVertexAttribute p.1 p.2)
          = (d.map (fun p => (p.1, p.2.map pyRound6))).map
              (fun q => ⟨q.1, q.2⟩) := by
      intro d
      rw [List.map_map]
      rfl
    rw [mkVertex, mkVertex, hmap, hmap, h]

/-- Witness for c2_addVertex: re-adding the very same vertex returns the
first index again. -/
theorem c2_addVertex_witness :
    (addVertex (addVertex ⟨[], []⟩ ⟨[⟨10, [5]⟩]⟩).2 ⟨[⟨10, [5]⟩]⟩).1
      = (addVertex ⟨[], []⟩ ⟨[⟨10, [5]⟩]⟩).1 :=
  c2_addVertex.1 ⟨[], []⟩ ⟨[⟨10, [5]⟩]⟩ ⟨[⟨10, [5]⟩]⟩ rfl

/-- C2 (counterexample): the vertices with single attributes of type 10 and
canonical component lists [0, 31] and [1, 0] are not value-equal, yet their
base-31 polynomial hashes coincide (both 841).  addVertex stores the first
under index 0 and returns index 0 again for the second: the hash collision
is silently merged, there is no equality fallback (indeed Vertex.__eq__ is
itself hash comparison, so the code even considers them equal). -/
theorem c2_counterexample :
    mkVertex [(10, [0, 31])] = (⟨[⟨10, [0, 31]⟩]⟩ : Vertex)
    ∧ mkVertex [(10, [1, 0])] = (⟨[⟨10, [1, 0]⟩]⟩ : Vertex)
    ∧ (⟨[⟨10, [0, 31]⟩]⟩ : Vertex) ≠ (⟨[⟨10, [1, 0]⟩]⟩ : Vertex)
    ∧ vertexEq ⟨[⟨10, [0, 31]⟩]⟩ ⟨[⟨10, [1, 0]⟩]⟩ = true
    ∧ (addVertex ⟨[], []⟩ ⟨[⟨10, [0, 31]⟩]⟩).1 = 0
    ∧ (addVertex (addVertex ⟨[], []⟩ ⟨[⟨10, [0, 31]⟩]⟩).2 ⟨[⟨10, [1, 0]⟩]⟩).1
        = 0 := by
  have h0 : pyHashRat (0:ℚ) = 0 :=
    pyHashRat_nat 0 0 (by norm_num) (by norm_num) (by norm_num [P61])
  have h1 : pyHashRat (1:ℚ) = 1 :=
    pyHashRat_nat 1 1 (by norm_num) (by norm_num) (by norm_num [P61])
  have h31 : pyHashRat (31:ℚ) = 31 :=
    pyHashRat_nat 31 31 (by norm_num) (by norm_num) (by norm_num [P61])
  have hA : vertexHash ⟨[⟨10, [0, 31]⟩]⟩ = 841 := by
    simp only [vertexHash, attrHash, hashFoldl, List.map_cons, List.map_nil,
      List.foldl_cons, List.foldl_nil, h0, h31]
    norm_num
  have hB : vertexHash ⟨[⟨10, [1, 0]⟩]⟩ = 841 := by
    simp only [vertexHash, attrHash, hashFoldl, List.map_cons, List.map_nil,
      List.foldl_cons, List.foldl_nil, h0, h1]
    norm_num
  have hr0 : pyRound6 (0:ℚ) = 0 := by norm_num [pyRound6, roundHalfEven]
  have hr1 : pyRound6 (1:ℚ) = 1 := by norm_num [pyRound6, roundHalfEven]
  have hr31 : pyRound6 (31:ℚ) = 31 := by norm_num [pyRound6, roundHalfEven]
  refine ⟨?_, ?_, ?_, ?_, ?_, ?_⟩
  · simp [mkVertex, mkVertexAttribute, hr0, hr31]
  · simp [mkVertex, mkVertexAttribute, hr0, hr1]
  · intro hc
    injection hc with hattrs
    injection hattrs with hhead _
    injection hhead with _ hvals
    injection hvals with hv _
    norm_num at hv
  · rw [vertexEq, hA, hB]
    rfl
  · simp [addVertex, lookupIdx, List.find?]
  · have e1 : (addVertex ⟨[], []⟩ ⟨[⟨10, [0, 31]⟩]⟩).2
        = ⟨[⟨[⟨10, [0, 31]⟩]⟩], [(vertexHash ⟨[⟨10, [0, 31]⟩]⟩, 0)]⟩ := by
      simp [addVertex, lookupIdx, List.find?]
    rw [e1]
    have hlook : lookupIdx [(vertexHash (⟨[⟨10, [0, 31]⟩]⟩ : Vertex), 0)]
        (vertexHash ⟨[⟨10, [1, 0]⟩]⟩) = some 0 := by
      rw [lookupIdx, hA, hB]
      simp [List.find?]
    simp only [addVertex, hlook]

/-! ## Keyframe approximation (approximator.py and utils.binaryInsert) -/

/-- Model of the binary search loop of utils.binaryInsert: returns the
insertion position low.  The source compares midValue - item with 0, which
for numbers is the comparison used here.  mid is low + (high - low) / 2,
which for low <= high equals the (low + high) // 2 of the source.  Out of
range accesses (impossible in the reachable states: the search keeps
0 <= mid < length) read the item itself. -/
def bisPos (l : List ℤ) (item : ℤ) (low high : ℤ) : ℤ :=
  if h : low ≤ high then
    let mid := low + (high - low) / 2
    let midValue := l.getD mid.toNat item
    if midValue < item then bisPos l item (mid + 1) high
    else if item < midValue then bisPos l item low (mid - 1)
    else mid
  else low
termination_by (high + 1 - low).toNat
decreasing_by
  · have h2 : 0 ≤ (high - low) / 2 := Int.ediv_nonneg (by omega) (by omega)
    have h3 : (high - low) / 2 ≤ high - low := Int.ediv_le_self 2 (by omega)
    omega
  · have _h2 : 0 ≤ (high - low) / 2 := Int.ediv_nonneg (by omega) (by omega)
    have h3 : (high - low) / 2 ≤ high - low := Int.ediv_le_self 2 (by omega)
    omega

/-- Model of utils.binaryInsert: the returned low and the list with the item
inserted there (list.insert(low, item) in the source). -/
def binaryInsert (l : List ℤ) (item : ℤ) : ℕ × List ℤ :=
  let low := (bisPos l item 0 ((l.length : ℤ) - 1)).toNat
  (low, l.take low ++ item :: l.drop low)

lemma sorted_getD_mono (l : List ℤ) (hs : l.Sorted (· ≤ ·)) (d : ℤ)
    {i j : ℕ} (hij : i ≤ j) (hj : j < l.length) :
    l.getD i d ≤ l.getD j d := by
  rcases eq_or_lt_of_le hij with rfl | hlt
  · exact le_refl _
  · rw [List.getD_eq_getElem l d (lt_of_le_of_lt hij hj),
      List.getD_eq_getElem l d hj]
    exact hs.rel_get_of_lt hlt

lemma bisPos_spec (l : List ℤ) (hs : l.Sorted (· ≤ ·)) (item : ℤ) :
    ∀ (n : ℕ) (low high : ℤ), (high + 1 - low).toNat ≤ n →
    0 ≤ low → low ≤ high + 1 → high < l.length →
    (∀ i : ℕ, (i:ℤ) < low → l.getD i item ≤ item) →
    (∀ i : ℕ, high < (i:ℤ) → i < l.length → item ≤ l.getD i item) →
    0 ≤ bisPos l item low high ∧ bisPos l item low high ≤ high + 1 ∧
    (∀ i : ℕ, (i:ℤ) < bisPos l item low high → l.getD i item ≤ item) ∧
    (∀ i : ℕ, bisPos l item low high ≤ (i:ℤ) → i < l.length →
      item ≤ l.getD i item) := by
  intro n
  induction n with
  | zero =>
      intro low high hfuel h0 hlh hhl hleft hright
      have hgt : ¬ (low ≤ high) := by omega
      rw [bisPos, dif_neg hgt]
      exact ⟨h0, by omega, hleft, fun i hi hil => hright i (by omega) hil⟩
  | succ n ih =>
      intro low high hfuel h0 hlh hhl hleft hright
      by_cases hle : low ≤ high
      · have h2 : 0 ≤ (high - low) / 2 := Int.ediv_nonneg (by omega) (by omega)
        have h3 : (high - low) / 2 ≤ high - low := Int.ediv_le_self 2 (by omega)
        rw [bisPos, dif_pos hle]
        simp only []
        have hmidlo : low ≤ low + (high - low) / 2 := by omega
        have hmidhi : low + (high - low) / 2 ≤ high := by omega
        have hmidlen : (low + (high - low) / 2).toNat < l.length := by omega
        split
        · rename_i hlt
          have hleft2 : ∀ i : ℕ, (i:ℤ) < low + (high - low) / 2 + 1 →
              l.getD i item ≤ item := by
            intro i hi
            have hile : i ≤ (low + (high - low) / 2).toNat := by omega
            calc l.getD i item
                ≤ l.getD (low + (high - low) / 2).toNat item :=
                  sorted_getD_mono l hs item hile hmidlen
              _ ≤ item := le_of_lt hlt
          exact ih (low + (high - low) / 2 + 1) high (by omega) (by omega)
            (by omega) hhl hleft2 hright
        · split
          · rename_i hnlt hgt
            have hright2 : ∀ i : ℕ, low + (high - low) / 2 - 1 < (i:ℤ) →
                i < l.length → item ≤ l.getD i item := by
              intro i hi hil
              have hile : (low + (high - low) / 2).toNat ≤ i := by omega
              calc item
                  ≤ l.getD (low + (high - low) / 2).toNat item := le_of_lt hgt
                _ ≤ l.getD i item := sorted_getD_mono l hs item hile hil
            obtain ⟨a1, a2, a3, a4⟩ := ih low (low + (high - low) / 2 - 1)
              (by omega) h0 (by omega) (by omega) hleft hright2
            exact ⟨a1, by omega, a3, fun i hi hil => a4 i hi hil⟩
          · rename_i hnlt hngt
            have heq : l.getD (low + (high - low) / 2).toNat item = item := by
              omega
            refine ⟨by omega, by omega, ?_, ?_⟩
            · intro i hi
              calc l.getD i item
                  ≤ l.getD (low + (high - low) / 2).toNat item :=
                    sorted_getD_mono l hs item (by omega) hmidlen
                _ = item := heq
            · intro i hi hil
              calc item
                  = l.getD (low + (high - low) / 2).toNat item := heq.symm
                _ ≤ l.getD i item := sorted_getD_mono l hs item (by omega) hil
      · rw [bisPos, dif_neg hle]
        exact ⟨h0, by omega, hleft, fun i hi hil => hright i (by omega) hil⟩

lemma binaryInsert_spec (l : List ℤ) (hs : l.Sorted (· ≤ ·)) (item : ℤ) :
    (binaryInsert l item).2.Sorted (· ≤ ·)
    ∧ item ∈ (binaryInsert l item).2
    ∧ ∀ x ∈ l, x ∈ (binaryInsert l item).2 := by
  obtain ⟨hp0, hp1, hlft, hrgt⟩ := bisPos_spec l hs item
    ((l.length : ℤ)).toNat 0 ((l.length : ℤ) - 1) (by omega) (by omega)
    (by omega) (by omega)
    (fun i hi => absurd hi (by omega))
    (fun i hi hil => absurd hil (by omega))
  have hple : (bisPos l item 0 ((l.length : ℤ) - 1)).toNat ≤ l.length := by
    omega
  refine ⟨?_, ?_, ?_⟩
  · rw [binaryInsert]
    simp only []
    rw [List.Sorted, List.pairwise_append]
    refine ⟨List.Pairwise.sublist (List.take_sublist _ _) hs, ?_, ?_⟩
    · rw [List.pairwise_cons]
      constructor
      · intro y hy
        rw [List.mem_iff_getElem] at hy
        obtain ⟨i, hilen, rfl⟩ := hy
        rw [List.getElem_drop]
        have hlen := List.length_drop
          (bisPos l item 0 ((l.length : ℤ) - 1)).toNat l
        have hidx : (bisPos l item 0 ((l.length:ℤ) - 1)).toNat + i
            < l.length := by
          rw [List.length_drop] at hilen
          omega
        have := hrgt ((bisPos l item 0 ((l.length:ℤ) - 1)).toNat + i)
          (by omega) hidx
        rw [List.getD_eq_getElem l item hidx] at this
        exact this
      · exact List.Pairwise.sublist (List.drop_sublist _ _) hs
    · intro x hx y hy
      rw [List.mem_iff_getElem] at hx
      obtain ⟨i, hilen, rfl⟩ := hx
      have hilen2 : i < l.length := by
        rw [List.length_take] at hilen
        omega
      have hitake : i < (bisPos l item 0 ((l.length:ℤ) - 1)).toNat := by
        rw [List.length_take] at hilen
        omega
      have hxle : l[i] ≤ item := by
        have := hlft i (by omega)
        rw [List.getD_eq_getElem l item hilen2] at this
        exact this
      rw [List.getElem_take]
      rcases List.mem_cons.mp hy with rfl | hy2
      · exact hxle
      · rw [List.mem_iff_getElem] at hy2
        obtain ⟨k, hklen, rfl⟩ := hy2
        rw [List.getElem_drop]
        have hidx : (bisPos l item 0 ((l.length:ℤ) - 1)).toNat + k
            < l.length := by
          rw [List.length_drop] at hklen
          omega
        have hyge := hrgt ((bisPos l item 0 ((l.length:ℤ) - 1)).toNat + k)
          (by omega) hidx
        rw [List.getD_eq_getElem l item hidx] at hyge
        exact le_trans hxle hyge
  · rw [binaryInsert]
    simp only []
    exact List.mem_append.mpr (Or.inr (List.mem_cons_self _ _))
  · intro x hx
    rw [binaryInsert]
    simp only []
    conv at hx => rw [← List.take_append_drop
      (bisPos l item 0 ((l.length : ℤ) - 1)).toNat l]
    rcases List.mem_append.mp hx with h | h
    · exact List.mem_append.mpr (Or.inl h)
    · exact List.mem_append.mpr (Or.inr (List.mem_cons_of_mem _ h))

/-- Model of Approximator.distanceSq: componentwise squared distance summed
over the length of the first point (the source writes the differences into a
scratch vector of the same dimension). -/
def distanceSq (p1 p2 : List ℚ) : ℚ :=
  ((List.range p1.length).map
    (fun i => (p2.getD i 0 - p1.getD i 0) * (p2.getD i 0 - p1.getD i 0))).sum

/-- Model of Approximator.onLine: squared deviation of pa from the segment
p1-p2, with the projection clamped to the segment and the zero-length
fallback of the source. -/
def onLine (p1 p2 pa : List ℚ) : ℚ :=
  let dsq := distanceSq p1 p2
  if dsq = 0 then 0
  else
    let u := (((List.range p1.length).map
      (fun i => (pa.getD i 0 - p1.getD i 0) * (p2.getD i 0 - p1.getD i 0))).sum)
      / dsq
    if u ≤ 0 then distanceSq p1 pa
    else if 1 ≤ u then distanceSq p2 pa
    else distanceSq ((List.range p1.length).map
      (fun i => p1.getD i 0 + u * (p2.getD i 0 - p1.getD i 0))) pa

/-- Model of Approximator.calcMaxError: scan the points strictly between
init and fin for the largest squared deviation; return (-1, maxValue) when
nothing exceeds err (or when the range is empty or reversed). -/
def calcMaxError (points : List (List ℚ)) (init fin : ℤ) (err : ℚ) :
    ℤ × ℚ :=
  if fin < init then (-1, 0)
  else
    let r := ((List.range ((fin - (init + 1)).toNat)).map
        (fun k => init + 1 + (k : ℤ))).foldl
      (fun acc i =>
        let sq := onLine (points.getD init.toNat []) (points.getD fin.toNat [])
          (points.getD i.toNat [])
        if acc.2 < sq then (i, sq) else acc) (-1, 0)
    if err < r.2 then r else (-1, r.2)

/-- Model of the worklist loop of Approximator.approximate.  The pending
stack idxs is kept with its top at the head (the source appends and pops at
the end of a Python list).  The fuel bounds the number of iterations; in
every reachable state the loop inserts one fresh strictly-interior index per
iteration, so points.length iterations are never exceeded. -/
def approximateGo (points : List (List ℚ)) (err : ℚ) :
    ℕ → List ℤ → List ℤ → List ℤ
  | 0, indices, _ => indices
  | fuel+1, indices, idxs =>
      match idxs with
      | [] => indices
      | c :: rest =>
          let r := binaryInsert indices c
          let r1 := calcMaxError points (r.2.getD (r.1 - 1) 0)
            (r.2.getD r.1 0) err
          let s1 := if r1.1 = -1 then rest else r1.1 :: rest
          let r2 := calcMaxError points (r.2.getD r.1 0)
            (r.2.getD (r.1 + 1) 0) err
          let s2 := if r2.1 = -1 then s1 else r2.1 :: s1
          approximateGo points err fuel r.2 s2

/-- Model of Approximator.approximate. -/
def approximate (points : List (List ℚ)) (err : ℚ) : List ℤ :=
  let indices : List ℤ := [0, (points.length : ℤ) - 1]
  let r := calcMaxError points 0 ((points.length : ℤ) - 1) err
  let idxs : List ℤ := if r.1 = -1 then [] else [r.1]
  approximateGo points err points.length indices idxs

lemma approximateGo_invariant (points : List (List ℚ)) (err : ℚ)
    (fuel : ℕ) :
    ∀ (indices idxs : List ℤ), indices.Sorted (· ≤ ·) →
    (0 : ℤ) ∈ indices → ((points.length : ℤ) - 1) ∈ indices →
    (approximateGo points err fuel indices idxs).Sorted (· ≤ ·)
    ∧ (0 : ℤ) ∈ approximateGo points err fuel indices idxs
    ∧ ((points.length : ℤ) - 1) ∈ approximateGo points err fuel indices idxs := by
  induction fuel with
  | zero =>
      intro indices idxs hs h0 hl
      exact ⟨hs, h0, hl⟩
  | succ fuel ih =>
      intro indices idxs hs h0 hl
      match idxs with
      | [] => exact ⟨hs, h0, hl⟩
      | c :: rest =>
          obtain ⟨hs2, _, hmem⟩ := binaryInsert_spec indices hs c
          exact ih (binaryInsert indices c).2 _ hs2 (hmem 0 h0) (hmem _ hl)

/-- C10: degenerate inputs do not fail: for every threshold, approximate on
a one-point list returns [0, 0] (first and last index coincide, a duplicate,
so the output is not strictly ascending) and on the empty list returns
[0, -1] (not sorted ascending). -/
theorem c10_approximate_degenerate (err : ℚ) (p : List ℚ) :
    approximate [p] err = [0, 0] ∧ approximate [] err = [0, -1] := by
  constructor
  · rw [approximate]
    have hc : calcMaxError [p] 0 (([p].length : ℤ) - 1) err
        = (-1, 0) := by
      rw [calcMaxError, if_neg (by simp)]
      simp [ite_self]
    rw [hc]
    simp [approximateGo]
  · rw [approximate]
    have hc : calcMaxError ([] : List (List ℚ)) 0
        ((([] : List (List ℚ)).length : ℤ) - 1) err = (-1, 0) := by
      rw [calcMaxError, if_pos (by simp)]
    rw [hc]
    simp [approximateGo]

/-- C5 (counterexample): for the empty input list the returned index list is
[0, -1], which is not sorted ascending, so the claim fails when quantified
over every input point list. -/
theorem c5_counterexample :
    approximate ([] : List (List ℚ)) 1 = [0, -1]
    ∧ ¬ (([0, -1] : List ℤ).Sorted (· ≤ ·)) := by
  constructor
  · exact (c10_approximate_degenerate 1 []).2
  · decide

/-- C5 (amended): for every nonempty input point list and every threshold,
the index list returned by approximate is sorted (non-decreasing; for a
one-point input the two endpoints coincide) and contains both the first
index 0 and the last index length - 1. -/
theorem c5_approximate_sorted (points : List (List ℚ)) (err : ℚ)
    (hne : points ≠ []) :
    (approximate points err).Sorted (· ≤ ·)
    ∧ (0 : ℤ) ∈ approximate points err
    ∧ ((points.length : ℤ) - 1) ∈ approximate points err := by
  have hlen : 1 ≤ points.length := by
    rcases points with _ | ⟨a, t⟩
    · exact absurd rfl hne
    · simp
  rw [approximate]
  apply approximateGo_invariant
  · rw [List.Sorted, List.pairwise_cons]
    constructor
    · intro b hb
      rw [List.mem_singleton] at hb
      subst hb
      omega
    · simp
  · simp
  · simp

/-- Witness for c5_approximate_sorted at a concrete one-point input. -/
theorem c5_approximate_sorted_witness :
    ([[ (0:ℚ) ]] ≠ ([] : List (List ℚ)))
    ∧ ((approximate [[(0:ℚ)]] 1).Sorted (· ≤ ·)
      ∧ (0 : ℤ) ∈ approximate [[(0:ℚ)]] 1
      ∧ ((([[(0:ℚ)]].length : ℤ)) - 1) ∈ approximate [[(0:ℚ)]] 1) :=
  ⟨by simp, c5_approximate_sorted [[(0:ℚ)]] 1 (by simp)⟩

/-! ## Attribute packing (model.py Mesh.normalizeAttributes, utils.wrapFloat4) -/

/-- Value of an IEEE-754 binary32 bit pattern as a rational.  Patterns with
exponent field 255 denote infinities or NaNs, which have no rational value;
they are mapped to 0 here and are never produced by the inputs of the
claims. -/
def f32ValOfBits (bits : ℕ) : ℚ :=
  let s : ℕ := bits / 2^31 % 2
  let e : ℕ := bits / 2^23 % 2^8
  let m : ℕ := bits % 2^23
  if e = 255 then 0
  else
    let mag : ℚ :=
      if e = 0 then (m : ℚ) / 2^149
      else ((2^23 + m : ℕ) : ℚ) * 2^e / 2^150
    if s = 1 then -mag else mag

/-- Model of the Python bitwise and with 255 on an arbitrary int (Python
bitwise ops use the infinite two's complement, so this is mod 256). -/
def pyAnd255 (n : ℤ) : ℕ := (n % 256).toNat

/-- Model of utils.wrapFloat4: truncate each channel scaled by 255, mask to
a byte, assemble the four bytes most-significant first and reinterpret the
32-bit pattern as a float (utils.bitsToFloat packs big-endian). -/
def wrapFloat4 (v1 v2 v3 v4 : ℚ) : ℚ :=
  f32ValOfBits (pyAnd255 (pyTrunc (v1 * 255)) * 2^24
    + pyAnd255 (pyTrunc (v2 * 255)) * 2^16
    + pyAnd255 (pyTrunc (v3 * 255)) * 2^8
    + pyAnd255 (pyTrunc (v4 * 255)))

/-- Option-valued map, modelling a loop that stops at the first failing
element (the struct.error propagating out of the loops of
normalizeAttributes). -/
def mapOpt {α β : Type} (f : α → Option β) : List α → Option (List β)
  | [] => some []
  | a :: t => do
      let b ← f a
      let r ← mapOpt f t
      pure (b :: r)

/-- Model of a struct.pack target of format B: an integral value in 0..255
(pack raises struct.error otherwise, and requires an int). -/
def toByte (q : ℚ) : Option ℕ :=
  if q.den = 1 ∧ 0 ≤ q.num ∧ q.num ≤ 255 then some q.num.toNat else none

/-- Big-endian reassembly of packed byte quadruplets into binary32 values:
models struct.unpack of that many floats from the bytes produced by
struct.pack with a byte-count format (both big-endian in the source). -/
def packBytes4 : List ℕ → List ℚ
  | b0 :: b1 :: b2 :: b3 :: rest =>
      f32ValOfBits (((b0 * 256 + b1) * 256 + b2) * 256 + b3) :: packBytes4 rest
  | _ => []

/-- Replace the value of the attribute with the given type id (the source
mutates the one shared attribute object of that type in place). -/
def setAttr (v : List VertexAttribute) (t : ℕ) (newVal : List ℚ) :
    List VertexAttribute :=
  v.map (fun a => if a.type == t then ⟨a.type, newVal⟩ else a)

/-- Model of the attrColorInx loop of normalizeAttributes: index of the last
COLOR (50) attribute in the schema, -1 when absent. -/
def attrColorIndex (types : List ℕ) : ℤ :=
  (List.range types.length).foldl
    (fun acc i => if types.getD i 0 = 50 then (i : ℤ) else acc) (-1)

/-- Model of the bonesCount loop of normalizeAttributes: the largest
BONEWEIGHTS (80) component count over the vertices. -/
def bonesCount (vertices : List (List VertexAttribute)) : ℕ :=
  vertices.foldl (fun bc v =>
    match v.find? (fun a => a.type == 80) with
    | some a => if bc < a.value.length then a.value.length else bc
    | none => bc) 0

/-- Bone packing step of normalizeAttributes for one vertex: pad indices and
weights to bonesCount, pad the indices further to the next multiple of four
(indicesCount), pack each index into a byte (range checked by struct.pack)
and reinterpret each big-endian quadruplet as one float.  A vertex without
bone attributes makes the source raise AttributeError, modelled by none. -/
def packVertexBones (bc : ℕ) (v : List VertexAttribute) :
    Option (List VertexAttribute) := do
  let ai ← v.find? (fun a => a.type == 70)
  let aw ← v.find? (fun a => a.type == 80)
  let ival := ai.value ++ List.replicate (bc - ai.value.length) (0 : ℚ)
  let wval := aw.value ++ List.replicate (bc - ai.value.length) (0 : ℚ)
  let indicesCount := ((bc - 1) >>> 2 <<< 2) + 4
  let ival2 := ival ++ List.replicate (indicesCount - ival.length) (0 : ℚ)
  if ival2.length = indicesCount then do
    let bytes ← mapOpt toByte ival2
    pure (setAttr (setAttr v 80 wval) 70 (packBytes4 bytes))
  else none

/-- Color packing step of normalizeAttributes for one vertex: the attribute
at the color schema index must exist and carry exactly four components
(struct.pack of four bytes), each int(c * 255) must be a byte, and the four
bytes are reinterpreted big-endian as one float. -/
def packVertexColor (ci : ℕ) (v : List VertexAttribute) :
    Option (List VertexAttribute) := do
  let attr ← v.get? ci
  match attr.value with
  | [c0, c1, c2, c3] => do
      let b0 ← toByte ((pyTrunc (c0 * 255) : ℤ) : ℚ)
      let b1 ← toByte ((pyTrunc (c1 * 255) : ℤ) : ℚ)
      let b2 ← toByte ((pyTrunc (c2 * 255) : ℤ) : ℚ)
      let b3 ← toByte ((pyTrunc (c3 * 255) : ℤ) : ℚ)
      pure (v.set ci
        ⟨attr.type, [f32ValOfBits (((b0 * 256 + b1) * 256 + b2) * 256 + b3)]⟩)
  | _ => none

/-- Model of Mesh.normalizeAttributes acting on the vertex list (the mesh
schema assignment is the type list of the first vertex and is only used to
locate the color attribute). -/
def normalizeAttributes (vertices : List (List VertexAttribute)) :
    Option (List (List VertexAttribute)) := do
  let attributes := match vertices with
    | [] => ([] : List ℕ)
    | v :: _ => v.map (fun a => a.type)
  let ci := attrColorIndex attributes
  let bc := bonesCount vertices
  let vertices2 ←
    if 0 < bc then mapOpt (packVertexBones bc) vertices else pure vertices
  if 0 ≤ ci then mapOpt (packVertexColor ci.toNat) vertices2
  else pure vertices2

lemma mapOpt_length {α β : Type} (f : α → Option β) :
    ∀ (l : List α) (l2 : List β), mapOpt f l = some l2 →
    l2.length = l.length := by
  intro l
  induction l with
  | nil =>
      intro l2 h
      simp only [mapOpt, Option.some.injEq] at h
      rw [← h]
      rfl
  | cons a t ih =>
      intro l2 h
      rw [mapOpt] at h
      cases hf : f a with
      | none => rw [hf] at h; simp at h
      | some b =>
          rw [hf] at h
          cases hm : mapOpt f t with
          | none => rw [hm] at h; simp at h
          | some r =>
              rw [hm] at h
              simp at h
              subst h
              simp [ih r hm]

lemma toByte_intCast (n : ℤ) (h0 : 0 ≤ n) (h255 : n ≤ 255) :
    toByte ((n : ℤ) : ℚ) = some n.toNat := by
  rw [toByte, if_pos]
  · rw [Rat.num_intCast]
  · exact ⟨Rat.den_intCast n, by rw [Rat.num_intCast]; exact h0,
      by rw [Rat.num_intCast]; exact h255⟩

lemma pyAnd255_of_range (n : ℤ) (h0 : 0 ≤ n) (h255 : n ≤ 255) :
    pyAnd255 n = n.toNat := by
  rw [pyAnd255, Int.emod_eq_of_lt h0 (by omega)]

/-- C7 (counterexample): the claim says the channel scaling is
round(channel * 255).  For the pure-red-half color [0.5, 0, 0, 1] the round
of 127.5 is 128, but the code computes int(127.5) = 127 (truncation), so
the packed float carries the byte 127, not 128; the two candidate bit
patterns denote different values. -/
theorem c7_counterexample :
    roundHalfEven ((1/2 : ℚ) * 255) = 128
    ∧ pyTrunc ((1/2 : ℚ) * 255) = 127
    ∧ normalizeAttributes [[⟨50, [1/2, 0, 0, 1]⟩]]
        = some [[⟨50, [f32ValOfBits (((127 * 256 + 0) * 256 + 0) * 256 + 255)]⟩]]
    ∧ f32ValOfBits (((127 * 256 + 0) * 256 + 0) * 256 + 255)
        ≠ f32ValOfBits (((128 * 256 + 0) * 256 + 0) * 256 + 255) := by
  have hfloor : (⌊(255 : ℚ) / 2⌋ : ℤ) = 127 := by
    rw [Int.floor_eq_iff]
    norm_num
  have hround : roundHalfEven ((1/2 : ℚ) * 255) = 128 := by
    rw [show (1/2 : ℚ) * 255 = 255/2 by norm_num]
    rw [roundHalfEven]
    simp only [hfloor]
    rw [if_neg (by norm_num), if_neg (by norm_num), if_neg (by norm_num)]
    norm_num
  have htr : pyTrunc ((1/2 : ℚ) * 255) = 127 := by
    rw [show (1/2 : ℚ) * 255 = 255/2 by norm_num]
    rw [pyTrunc, if_pos (by norm_num), hfloor]
  have ht0 : pyTrunc ((0 : ℚ) * 255) = 0 := by
    rw [pyTrunc, if_pos (by norm_num)]
    norm_num
  have ht1 : pyTrunc ((1 : ℚ) * 255) = 255 := by
    rw [pyTrunc, if_pos (by norm_num)]
    norm_num
  have hcol : packVertexColor 0 [⟨50, [1/2, 0, 0, 1]⟩]
      = some [⟨50, [f32ValOfBits (((127 * 256 + 0) * 256 + 0) * 256 + 255)]⟩] := by
    have h1 : packVertexColor 0 [⟨50, [1/2, 0, 0, 1]⟩]
        = (do
          let b0 ← toByte ((pyTrunc ((1/2 : ℚ) * 255) : ℤ) : ℚ)
          let b1 ← toByte ((pyTrunc ((0 : ℚ) * 255) : ℤ) : ℚ)
          let b2 ← toByte ((pyTrunc ((0 : ℚ) * 255) : ℤ) : ℚ)
          let b3 ← toByte ((pyTrunc ((1 : ℚ) * 255) : ℤ) : ℚ)
          pure (([⟨50, [(1/2 : ℚ), 0, 0, 1]⟩] : List VertexAttribute).set 0
            ⟨50, [f32ValOfBits (((b0 * 256 + b1) * 256 + b2) * 256 + b3)]⟩)) :=
      rfl
    rw [h1, htr, ht0, ht1]
    rw [toByte_intCast 127 (by norm_num) (by norm_num),
      toByte_intCast 0 (by norm_num) (by norm_num),
      toByte_intCast 255 (by norm_num) (by norm_num)]
    rfl
  have heval : normalizeAttributes [[⟨50, [1/2, 0, 0, 1]⟩]]
      = some [[⟨50, [f32ValOfBits (((127 * 256 + 0) * 256 + 0) * 256 + 255)]⟩]] := by
    have hstep : normalizeAttributes [[⟨50, [1/2, 0, 0, 1]⟩]]
        = mapOpt (packVertexColor 0) [[⟨50, [1/2, 0, 0, 1]⟩]] := rfl
    rw [hstep]
    simp only [mapOpt]
    rw [hcol]
    simp only [Option.pure_def, Option.bind_eq_bind, Option.some_bind]
  refine ⟨hround, htr, heval, ?_⟩
  have e1 : f32ValOfBits (((127 * 256 + 0) * 256 + 0) * 256 + 255)
      = ((2^23 + 255 : ℕ) : ℚ) * 2^254 / 2^150 := by
    norm_num [f32ValOfBits]
  have e2 : f32ValOfBits (((128 * 256 + 0) * 256 + 0) * 256 + 255)
      = -((255 : ℚ) / 2^149) := by
    norm_num [f32ValOfBits]
  rw [e1, e2]
  intro hc
  have hpos : (0:ℚ) < ((2^23 + 255 : ℕ) : ℚ) * 2^254 / 2^150 := by positivity
  have hneg : -((255 : ℚ) / 2^149) < 0 := by norm_num
  rw [hc] at hpos
  exact absurd hpos (not_lt.mpr (le_of_lt hneg))

/-- C7 (amended): attribute normalization packs each vertex color through
int(channel * 255) (truncation toward zero, not round): when the four
truncated channels are bytes, the packed single component is exactly
utils.wrapFloat4 of the channels (big-endian byte order in the binary32 bit
pattern).  Bone-index lists are padded up to indicesCount, the next multiple
of 4 at or above the bone count, and packed as four byte values per float
slot, each quadruplet interpreted big-endian. -/
theorem c7_normalizeAttributes :
    (∀ (v : List VertexAttribute) (ci : ℕ) (t : ℕ) (c0 c1 c2 c3 : ℚ),
      v.get? ci = some ⟨t, [c0, c1, c2, c3]⟩ →
      (∀ c ∈ [c0, c1, c2, c3],
        0 ≤ pyTrunc (c * 255) ∧ pyTrunc (c * 255) ≤ 255) →
      packVertexColor ci v
        = some (v.set ci ⟨t, [wrapFloat4 c0 c1 c2 c3]⟩))
    ∧ (∀ bc : ℕ, 1 ≤ bc →
        4 ∣ ((bc - 1) >>> 2 <<< 2) + 4
        ∧ bc ≤ ((bc - 1) >>> 2 <<< 2) + 4
        ∧ ((bc - 1) >>> 2 <<< 2) + 4 < bc + 4)
    ∧ (∀ (bc : ℕ) (v out : List VertexAttribute),
        packVertexBones bc v = some out →
        ∃ ai aw bytes,
          v.find? (fun a => a.type == 70) = some ai
          ∧ v.find? (fun a => a.type == 80) = some aw
          ∧ mapOpt toByte
              ((ai.value ++ List.replicate (bc - ai.value.length) (0:ℚ))
                ++ List.replicate
                  ((((bc - 1) >>> 2 <<< 2) + 4)
                    - (ai.value
                        ++ List.replicate (bc - ai.value.length) (0:ℚ)).length)
                  (0:ℚ))
              = some bytes
          ∧ bytes.length = ((bc - 1) >>> 2 <<< 2) + 4
          ∧ out = setAttr
              (setAttr v 80
                (aw.value ++ List.replicate (bc - ai.value.length) (0:ℚ)))
              70 (packBytes4 bytes))
    ∧ (∀ b0 b1 b2 b3 : ℕ, ∀ rest : List ℕ,
        packBytes4 (b0 :: b1 :: b2 :: b3 :: rest)
          = f32ValOfBits (b0 * 2^24 + b1 * 2^16 + b2 * 2^8 + b3)
            :: packBytes4 rest)
    ∧ (∀ vertices out : List (List VertexAttribute),
        normalizeAttributes vertices = some out →
        out.length = vertices.length) := by
  refine ⟨?_, ?_, ?_, ?_, ?_⟩
  · intro v ci t c0 c1 c2 c3 hget hrange
    have h0 := hrange c0 (by simp)
    have h1 := hrange c1 (by simp)
    have h2 := hrange c2 (by simp)
    have h3 := hrange c3 (by simp)
    rw [packVertexColor, hget]
    show (do
        let b0 ← toByte ((pyTrunc (c0 * 255) : ℤ) : ℚ)
        let b1 ← toByte ((pyTrunc (c1 * 255) : ℤ) : ℚ)
        let b2 ← toByte ((pyTrunc (c2 * 255) : ℤ) : ℚ)
        let b3 ← toByte ((pyTrunc (c3 * 255) : ℤ) : ℚ)
        pure (v.set ci
          ⟨t, [f32ValOfBits (((b0 * 256 + b1) * 256 + b2) * 256 + b3)]⟩))
      = some (v.set ci ⟨t, [wrapFloat4 c0 c1 c2 c3]⟩)
    rw [toByte_intCast _ h0.1 h0.2, toByte_intCast _ h1.1 h1.2,
      toByte_intCast _ h2.1 h2.2, toByte_intCast _ h3.1 h3.2]
    simp only [Option.pure_def, Option.bind_eq_bind, Option.some_bind]
    rw [wrapFloat4, pyAnd255_of_range _ h0.1 h0.2,
      pyAnd255_of_range _ h1.1 h1.2, pyAnd255_of_range _ h2.1 h2.2,
      pyAnd255_of_range _ h3.1 h3.2]
    have harith : ∀ a b c d : ℕ,
        ((a * 256 + b) * 256 + c) * 256 + d
          = a * 2^24 + b * 2^16 + c * 2^8 + d := by
      intro a b c d
      ring
    rw [harith]
  · intro bc hbc
    have hrw : ((bc - 1) >>> 2 <<< 2) + 4 = (bc - 1) / 4 * 4 + 4 := by
      rw [Nat.shiftLeft_eq, Nat.shiftRight_eq_div_pow]
    rw [hrw]
    have hd1 : (bc - 1) / 4 * 4 ≤ bc - 1 := Nat.div_mul_le_self _ _
    have hd2 : bc - 1 < (bc - 1) / 4 * 4 + 4 :=
      Nat.lt_div_mul_add (by norm_num)
    refine ⟨⟨(bc - 1) / 4 + 1, by ring⟩, by omega, by omega⟩
  · intro bc v out h
    rw [packVertexBones] at h
    cases hai : v.find? (fun a => a.type == 70) with
    | none => rw [hai] at h; simp at h
    | some ai =>
        rw [hai] at h
        cases haw : v.find? (fun a => a.type == 80) with
        | none => rw [haw] at h; simp at h
        | some aw =>
            rw [haw] at h
            simp only [Option.pure_def, Option.bind_eq_bind,
              Option.some_bind] at h
            split at h
            · rename_i hlen
              cases hbytes : mapOpt toByte
                  ((ai.value ++ List.replicate (bc - ai.value.length) (0:ℚ))
                    ++ List.replicate
                      ((((bc - 1) >>> 2 <<< 2) + 4)
                        - (ai.value
                            ++ List.replicate (bc - ai.value.length) (0:ℚ)).length)
                      (0:ℚ)) with
              | none => rw [hbytes] at h; simp at h
              | some bytes =>
                  rw [hbytes] at h
                  simp only [Option.pure_def, Option.bind_eq_bind,
                    Option.some_bind, Option.some.injEq] at h
                  refine ⟨ai, aw, bytes, rfl, rfl, hbytes, ?_, h.symm⟩
                  rw [mapOpt_length toByte _ _ hbytes]
                  exact hlen
            · simp at h
  · intro b0 b1 b2 b3 rest
    rw [packBytes4]
    have harith : ((b0 * 256 + b1) * 256 + b2) * 256 + b3
        = b0 * 2^24 + b1 * 2^16 + b2 * 2^8 + b3 := by ring
    rw [harith]
  · intro vertices out h
    rw [normalizeAttributes.eq_def] at h
    simp only [] at h
    by_cases hbc : 0 < bonesCount vertices
    · rw [if_pos hbc] at h
      cases hm1 : mapOpt (packVertexBones (bonesCount vertices)) vertices with
      | none =>
          rw [hm1] at h
          simp at h
      | some v2 =>
          rw [hm1] at h
          simp only [Option.pure_def, Option.bind_eq_bind,
            Option.some_bind] at h
          have hlen1 := mapOpt_length _ _ _ hm1
          split at h
          · rw [mapOpt_length _ _ _ h, hlen1]
          · simp only [Option.some.injEq] at h
            subst h
            exact hlen1
    · rw [if_neg hbc] at h
      simp only [Option.pure_def, Option.bind_eq_bind,
        Option.some_bind] at h
      split at h
      · exact mapOpt_length _ _ _ h
      · simp only [Option.some.injEq] at h
        subst h
        rfl

/-- Witness for c7_normalizeAttributes: packing a full-red color through the
color path equals wrapFloat4 on the channels. -/
theorem c7_normalizeAttributes_witness :
    packVertexColor 0 [⟨50, [1, 0, 0, 1]⟩]
      = some (([⟨50, [1, 0, 0, 1]⟩] : List VertexAttribute).set 0
          ⟨50, [wrapFloat4 1 0 0 1]⟩) :=
  c7_normalizeAttributes.1 [⟨50, [1, 0, 0, 1]⟩] 0 50 1 0 0 1 rfl (by
    intro c hc
    have h255 : pyTrunc ((1 : ℚ) * 255) = 255 := by
      rw [pyTrunc, if_pos (by norm_num)]
      norm_num
    have h00 : pyTrunc ((0 : ℚ) * 255) = 0 := by
      rw [pyTrunc, if_pos (by norm_num)]
      norm_num
    fin_cases hc <;> simp only [h255, h00] <;> omega)

/-! ## NBT codec (nbt.py) -/

/-- Big-endian byte list (k bytes, most significant first) of a word. -/
def bytesBE : ℕ → ℕ → List ℕ
  | 0, _ => []
  | k+1, n => n / 256^k % 256 :: bytesBE k n

/-- Byte order of a k-byte word under struct with < (le) or > prefixes. -/
def wordBytes (le : Bool) (k n : ℕ) : List ℕ :=
  if le then (bytesBE k n).reverse else bytesBE k n

/-- struct.pack of one signed k-byte integer: range checked, written in twos
complement. -/
def writeIntBytes (le : Bool) (k : ℕ) (v : ℤ) : Option (List ℕ) :=
  if -(2^(8*k-1) : ℤ) ≤ v ∧ v < 2^(8*k-1) then
    some (wordBytes le k (v % 2^(8*k)).toNat)
  else none

/-- struct.pack of one unsigned k-byte integer (format H). -/
def writeUIntBytes (le : Bool) (k : ℕ) (v : ℤ) : Option (List ℕ) :=
  if 0 ≤ v ∧ v < 2^(8*k) then some (wordBytes le k v.toNat) else none

def beWord (bs : List ℕ) : ℕ := bs.foldl (fun acc b => acc * 256 + b) 0

/-- unpack needs the full k bytes from the stream; fewer raise
struct.error. -/
def readBytes (k : ℕ) (bs : List ℕ) : Option (List ℕ × List ℕ) :=
  if k ≤ bs.length then some (bs.take k, bs.drop k) else none

def readUWord (le : Bool) (k : ℕ) (bs : List ℕ) : Option (ℕ × List ℕ) :=
  (readBytes k bs).map fun p =>
    (beWord (if le then p.1.reverse else p.1), p.2)

/-- struct.unpack of one signed k-byte integer. -/
def readIntBytes (le : Bool) (k : ℕ) (bs : List ℕ) : Option (ℤ × List ℕ) :=
  (readUWord le k bs).map fun p =>
    (if p.1 < 2^(8*k-1) then (p.1 : ℤ) else (p.1 : ℤ) - 2^(8*k), p.2)

/-- UTF-8 encoding of one code point (str.encode, which never fails on a
valid Char). -/
def utf8EncodeChar (c : Char) : List ℕ :=
  let n := c.toNat
  if n < 128 then [n]
  else if n < 2048 then [192 + n / 64, 128 + n % 64]
  else if n < 65536 then [224 + n / 4096, 128 + n / 64 % 64, 128 + n % 64]
  else [240 + n / 262144, 128 + n / 4096 % 64, 128 + n / 64 % 64, 128 + n % 64]

def contByte (b : ℕ) : Bool := decide (128 ≤ b ∧ b < 192)

/-- Strict UTF-8 decoding of one leading code point (bytes.decode with the
default strict error handler: overlong forms, surrogates and values above
U+10FFFF are rejected). -/
def utf8DecodeChar : List ℕ → Option (Char × List ℕ)
  | [] => none
  | b :: bs =>
    if b < 128 then some (Char.ofNat b, bs)
    else if 194 ≤ b ∧ b < 224 then
      match bs with
      | c :: bs2 =>
          if contByte c then
            some (Char.ofNat ((b - 192) * 64 + (c - 128)), bs2)
          else none
      | _ => none
    else if 224 ≤ b ∧ b < 240 then
      match bs with
      | c :: d :: bs2 =>
          if contByte c && contByte d
              && (b != 224 || decide (160 ≤ c))
              && (b != 237 || decide (c < 160)) then
            some (Char.ofNat ((b - 224) * 4096 + (c - 128) * 64 + (d - 128)), bs2)
          else none
      | _ => none
    else if 240 ≤ b ∧ b < 245 then
      match bs with
      | c :: d :: e :: bs2 =>
          if contByte c && contByte d && contByte e
              && (b != 240 || decide (144 ≤ c))
              && (b != 244 || decide (c < 144)) then
            some (Char.ofNat
              ((b - 240) * 262144 + (c - 128) * 4096 + (d - 128) * 64 + (e - 128)),
              bs2)
          else none
      | _ => none
    else none

def utf8Decode : ℕ → List ℕ → Option (List Char)
  | _, [] => some []
  | 0, _ :: _ => none
  | fuel+1, bs => do
      let (c, rest) ← utf8DecodeChar bs
      let cs ← utf8Decode fuel rest
      pure (c :: cs)

def pyDecodeUtf8 (bs : List ℕ) : Option String :=
  (utf8Decode bs.length bs).map fun cs => ⟨cs⟩

/-- NBTBase._write_utf8: the length prefix is len(value), the number of
CHARACTERS of the string, while the payload is its UTF-8 byte encoding. -/
def writeUtf8 (le : Bool) (s : String) : Option (List ℕ) := do
  let lenBytes ← writeIntBytes le 2 (s.length : ℤ)
  pure (lenBytes ++ (s.data.map utf8EncodeChar).flatten)

/-- NBTBase._read_utf8: reads the length prefix and then that many BYTES
(io.read truncates at the end of the stream without error; a negative
length makes io.read consume the whole rest). -/
def readUtf8 (le : Bool) (bs : List ℕ) : Option (String × List ℕ) := do
  let (len, rest) ← readIntBytes le 2 bs
  let data := if len < 0 then rest else rest.take len.toNat
  let rest2 := if len < 0 then ([] : List ℕ) else rest.drop len.toNat
  let s ← pyDecodeUtf8 data
  pure (s, rest2)

/-- The NBTTag classes of nbt.py; kUShortArray is the subclass
NBTTagUShortArray of NBTTagShortArray. -/
inductive TagKind where
  | kEnd | kByte | kShort | kInt | kLong | kFloat | kDouble
  | kByteArray | kString | kList | kCompound
  | kIntArray | kLongArray | kShortArray | kFloatArray | kUShortArray
  deriving DecidableEq

/-- cls.type() of each class.  NBTTagUShortArray does not override type(),
so it inherits NBTTagShortArray.type() and also reports 0x0D. -/
def typeByte : TagKind → ℕ
  | .kEnd => 0
  | .kByte => 1
  | .kShort => 2
  | .kInt => 3
  | .kLong => 4
  | .kFloat => 5
  | .kDouble => 6
  | .kByteArray => 7
  | .kString => 8
  | .kList => 9
  | .kCompound => 10
  | .kIntArray => 11
  | .kLongArray => 12
  | .kShortArray => 13
  | .kFloatArray => 14
  | .kUShortArray => 13

mutual
/-- NBT tag trees.  A Python float value is represented by the bit pattern
of its binary32 (or binary64) image: on the well-formed trees of the spec
every float value is exactly representable, pack and unpack are inverse
bijections between such values and bit patterns, so the byte-level codec
is captured exactly.  endT models NBTTagEnd objects, which only the list
reader can produce. -/
inductive Tag where
  | endT (v : ℤ)
  | byte (v : ℤ)
  | short (v : ℤ)
  | int (v : ℤ)
  | long (v : ℤ)
  | float (bits : ℕ)
  | double (bits : ℕ)
  | byteArray (vs : List ℤ)
  | string (s : String)
  | list (itemKind : TagKind) (elems : TagSeq)
  | compound (entries : EntrySeq)
  | intArray (vs : List ℤ)
  | longArray (vs : List ℤ)
  | shortArray (vs : List ℤ)
  | floatArray (vs : List ℕ)
  | ushortArray (vs : List ℤ)

/-- The element list of an NBTTagList (mutual with Tag so that recursion
over trees stays structural). -/
inductive TagSeq where
  | nil
  | cons (t : Tag) (ts : TagSeq)

/-- The insertion-ordered name/tag entries of an NBTTagCompound. -/
inductive EntrySeq where
  | nil
  | cons (key : String) (t : Tag) (ts : EntrySeq)
end

def kindOf : Tag → TagKind
  | .endT _ => .kEnd
  | .byte _ => .kByte
  | .short _ => .kShort
  | .int _ => .kInt
  | .long _ => .kLong
  | .float _ => .kFloat
  | .double _ => .kDouble
  | .byteArray _ => .kByteArray
  | .string _ => .kString
  | .list _ _ => .kList
  | .compound _ => .kCompound
  | .intArray _ => .kIntArray
  | .longArray _ => .kLongArray
  | .shortArray _ => .kShortArray
  | .floatArray _ => .kFloatArray
  | .ushortArray _ => .kUShortArray

/-- isinstance(item, cls) over the NBTTag classes: an NBTTagUShortArray is
also an instance of NBTTagShortArray (subclass); all other pairs of
distinct classes are unrelated. -/
def isInst (t : Tag) (k : TagKind) : Bool :=
  kindOf t == k || (kindOf t == .kUShortArray && k == .kShortArray)

def seqLength : TagSeq → ℕ
  | .nil => 0
  | .cons _ ts => seqLength ts + 1

def entryCount : EntrySeq → ℕ
  | .nil => 0
  | .cons _ _ ts => entryCount ts + 1

/-- NBTTagList.write on an item that is not an instance of the declared
class: item = self.type(item) builds a fresh tag of the declared class
around the old tag object and writes that.  For a declared NBTTagList the
constructor treats the item as the element class and writes an empty list
header carrying the item kind; for every other declared class the write of
the wrapped tag object raises (struct.error or TypeError on a tag-valued
argument), modelled by none. -/
def coerceWrite (le : Bool) (k : TagKind) (t : Tag) : Option (List ℕ) :=
  match k with
  | .kList => some (wordBytes le 1 (typeByte (kindOf t)) ++ wordBytes le 4 0)
  | _ => none

/-- NBTTagArray.write: one pack call of the length followed by all the
elements; the length is a signed 32-bit int and every element is range
checked by pack. -/
def writeArray (le : Bool) (k : ℕ) (u : Bool) (vs : List ℤ) :
    Option (List ℕ) := do
  let lenBytes ← writeIntBytes le 4 (vs.length : ℤ)
  let body ← mapOpt
    (fun v => if u then writeUIntBytes le k v else writeIntBytes le k v) vs
  pure (lenBytes ++ body.flatten)

mutual
/-- v.write(write) of nbt.py: the payload bytes of one tag (no type byte,
no name).  none models a raised exception. -/
def writeTag (le : Bool) : Tag → Option (List ℕ)
  | .endT _ => none
  | .byte v => writeIntBytes le 1 v
  | .short v => writeIntBytes le 2 v
  | .int v => writeIntBytes le 4 v
  | .long v => writeIntBytes le 8 v
  | .float bits => some (wordBytes le 4 (bits % 2^32))
  | .double bits => some (wordBytes le 8 (bits % 2^64))
  | .byteArray vs => writeArray le 1 false vs
  | .string s => writeUtf8 le s
  | .list k elems => do
      let hd ← writeIntBytes le 1 (typeByte k : ℤ)
      let ln ← writeIntBytes le 4 (seqLength elems : ℤ)
      let body ← writeElems le k elems
      pure (hd ++ ln ++ body)
  | .compound es => do
      let body ← writeEntries le es
      pure (body ++ [0])
  | .intArray vs => writeArray le 4 false vs
  | .longArray vs => writeArray le 8 false vs
  | .shortArray vs => writeArray le 2 false vs
  | .ushortArray vs => writeArray le 2 true vs
  | .floatArray vs => do
      let ln ← writeIntBytes le 4 (vs.length : ℤ)
      pure (ln ++ (vs.map fun b => wordBytes le 4 (b % 2^32)).flatten)

/-- The element loop of NBTTagList.write. -/
def writeElems (le : Bool) (k : TagKind) : TagSeq → Option (List ℕ)
  | .nil => some []
  | .cons t ts => do
      let b ← if isInst t k then writeTag le t else coerceWrite le k t
      let r ← writeElems le k ts
      pure (b ++ r)

/-- The entry loop of NBTTagCompound.write: type byte of the value class,
name, payload. -/
def writeEntries (le : Bool) : EntrySeq → Option (List ℕ)
  | .nil => some []
  | .cons key t ts => do
      let tb ← writeIntBytes le 1 (typeByte (kindOf t) : ℤ)
      let nb ← writeUtf8 le key
      let vb ← writeTag le t
      let r ← writeEntries le ts
      pure (tb ++ nb ++ vb ++ r)
end

def kindOfByte : ℕ → TagKind
  | 0 => .kEnd
  | 1 => .kByte
  | 2 => .kShort
  | 3 => .kInt
  | 4 => .kLong
  | 5 => .kFloat
  | 6 => .kDouble
  | 7 => .kByteArray
  | 8 => .kString
  | 9 => .kList
  | 10 => .kCompound
  | 11 => .kIntArray
  | 12 => .kLongArray
  | 13 => .kShortArray
  | 14 => .kFloatArray
  | _ => .kEnd

/-- Model of _tags[i] with Python tuple indexing on the 15 registered classes: the
index is a signed byte, negative values count from the end of the tuple,
anything outside -15..14 raises IndexError.  NBTTagUShortArray is not
registered, so 0x0D resolves to the signed NBTTagShortArray. -/
def tagClassOf (i : ℤ) : Option TagKind :=
  if 0 ≤ i ∧ i ≤ 14 then some (kindOfByte i.toNat)
  else if -15 ≤ i ∧ i < 0 then some (kindOfByte (i + 15).toNat)
  else none

def readIntList (le : Bool) (k : ℕ) : ℕ → List ℕ → Option (List ℤ × List ℕ)
  | 0, bs => some ([], bs)
  | n+1, bs => do
      let (v, r) ← readIntBytes le k bs
      let (vs, r2) ← readIntList le k n r
      pure (v :: vs, r2)

def readWordList (le : Bool) (k : ℕ) : ℕ → List ℕ → Option (List ℕ × List ℕ)
  | 0, bs => some ([], bs)
  | n+1, bs => do
      let (v, r) ← readUWord le k bs
      let (vs, r2) ← readWordList le k n r
      pure (v :: vs, r2)

/-- NBTTagArray reads: a signed 32-bit length, then that many elements; a
negative length builds a malformed struct format string and raises. -/
def readArrayWith {α : Type} (le : Bool)
    (rd : ℕ → List ℕ → Option (List α × List ℕ)) (bs : List ℕ) :
    Option (List α × List ℕ) := do
  let (n, r) ← readIntBytes le 4 bs
  if n < 0 then none else rd n.toNat r

mutual
/-- cls.read(read) of nbt.py, fuelled so that the recursion is structural;
every recursive call strictly consumes input, so any fuel above the number
of remaining bytes is enough. -/
def readTagF (le : Bool) : ℕ → TagKind → List ℕ → Option (Tag × List ℕ)
  | 0, _, _ => none
  | _+1, .kEnd, bs => do
      let (v, r) ← readIntBytes le 1 bs
      let (_, r2) ← readIntBytes le 1 r
      pure (.endT v, r2)
  | _+1, .kByte, bs => (readIntBytes le 1 bs).map fun p => (.byte p.1, p.2)
  | _+1, .kShort, bs => (readIntBytes le 2 bs).map fun p => (.short p.1, p.2)
  | _+1, .kInt, bs => (readIntBytes le 4 bs).map fun p => (.int p.1, p.2)
  | _+1, .kLong, bs => (readIntBytes le 8 bs).map fun p => (.long p.1, p.2)
  | _+1, .kFloat, bs => (readUWord le 4 bs).map fun p => (.float p.1, p.2)
  | _+1, .kDouble, bs => (readUWord le 8 bs).map fun p => (.double p.1, p.2)
  | _+1, .kByteArray, bs =>
      (readArrayWith le (readIntList le 1) bs).map fun p => (.byteArray p.1, p.2)
  | _+1, .kString, bs => (readUtf8 le bs).map fun p => (.string p.1, p.2)
  | fuel+1, .kList, bs => do
      let (tb, r1) ← readIntBytes le 1 bs
      let (n, r2) ← readIntBytes le 4 r1
      let ik ← tagClassOf tb
      let (elems, r3) ← readElemsF le fuel ik n.toNat r2
      pure (.list ik elems, r3)
  | fuel+1, .kCompound, bs => do
      let (es, r) ← readEntriesF le fuel bs
      pure (.compound es, r)
  | _+1, .kIntArray, bs =>
      (readArrayWith le (readIntList le 4) bs).map fun p => (.intArray p.1, p.2)
  | _+1, .kLongArray, bs =>
      (readArrayWith le (readIntList le 8) bs).map fun p => (.longArray p.1, p.2)
  | _+1, .kShortArray, bs =>
      (readArrayWith le (readIntList le 2) bs).map fun p => (.shortArray p.1, p.2)
  | _+1, .kFloatArray, bs =>
      (readArrayWith le (readWordList le 4) bs).map fun p => (.floatArray p.1, p.2)
  | _+1, .kUShortArray, bs =>
      (readArrayWith le (readIntList le 2) bs).map fun p => (.ushortArray p.1, p.2)

/-- The element loop of NBTTagList.read (range(0, length) of a negative
length is empty, hence the count is a natural number). -/
def readElemsF (le : Bool) : ℕ → TagKind → ℕ → List ℕ → Option (TagSeq × List ℕ)
  | 0, _, _, _ => none
  | _+1, _, 0, bs => some (.nil, bs)
  | fuel+1, ik, n+1, bs => do
      let (t, r) ← readTagF le fuel ik bs
      let (ts, r2) ← readElemsF le fuel ik n r
      pure (.cons t ts, r2)

/-- The while loop of NBTTagCompound.read: type byte, stop at 0, else
name, dispatch through _tags and recurse. -/
def readEntriesF (le : Bool) : ℕ → List ℕ → Option (EntrySeq × List ℕ)
  | 0, _ => none
  | fuel+1, bs => do
      let (tb, r1) ← readIntBytes le 1 bs
      if tb = 0 then some (.nil, r1)
      else do
        let (name, r2) ← readUtf8 le r1
        let k ← tagClassOf tb
        let (t, r3) ← readTagF le fuel k r2
        let (ts, r4) ← readEntriesF le fuel r3
        pure (.cons name t ts, r4)
end

def strRepeat (s : String) : ℕ → String
  | 0 => ""
  | n+1 => s ++ strRepeat s n

def listRepr (vs : List ℤ) : String :=
  "[" ++ String.intercalate ", " (vs.map toString) ++ "]"

def prettyArrayStr (cls : String) (vs : List ℤ) : String :=
  if vs.length ≤ 11 then cls ++ " " ++ listRepr vs
  else cls ++ " [ " ++ toString vs.length ++ " elements ]"

mutual
/-- v.pretty(rest_indent, indent_str) of nbt.py.  NBTTagInt and NBTTagEnd
do not override pretty, so they fall back to repr, ClassName(value).  The
textual repr of a Python float is outside this rational model: a node
whose pretty output would include one (float, double, a float array of at
most 11 elements) is mapped to none; no claim exercises those nodes. -/
def prettyTag (ind : String) : Tag → ℕ → Option String
  | .endT v, _ => some ("NBTTagEnd(" ++ toString v ++ ")")
  | .byte v, _ => some (toString v ++ "B")
  | .short v, _ => some (toString v ++ "S")
  | .int v, _ => some ("NBTTagInt(" ++ toString v ++ ")")
  | .long v, _ => some (toString v ++ "L")
  | .float _, _ => none
  | .double _, _ => none
  | .byteArray vs, _ => some (prettyArrayStr "NBTTagByteArray" vs)
  | .string s, _ => some ("\x27" ++ s ++ "\x27")
  | .list _ elems, rest =>
      if seqLength elems = 0 then some "[]"
      else do
        let body ← prettyElems ind elems (rest + 1)
        pure ("[ " ++ toString (seqLength elems) ++ " entries" ++ body
          ++ "\n" ++ strRepeat ind rest ++ "]")
  | .compound es, rest =>
      if entryCount es = 0 then some "\x7b\x7d"
      else do
        let body ← prettyEntries ind es (rest + 1)
        pure ("\x7b " ++ toString (entryCount es) ++ " entries" ++ body
          ++ "\n" ++ strRepeat ind rest ++ "\x7d")
  | .intArray vs, _ => some (prettyArrayStr "NBTTagIntArray" vs)
  | .longArray vs, _ => some (prettyArrayStr "NBTTagLongArray" vs)
  | .shortArray vs, _ => some (prettyArrayStr "NBTTagShortArray" vs)
  | .floatArray vs, _ =>
      if vs.length ≤ 11 then none
      else some ("NBTTagFloatArray [ " ++ toString vs.length ++ " elements ]")
  | .ushortArray vs, _ => some (prettyArrayStr "NBTTagUShortArray" vs)

def prettyElems (ind : String) : TagSeq → ℕ → Option String
  | .nil, _ => some ""
  | .cons t ts, level => do
      let p ← prettyTag ind t level
      let r ← prettyElems ind ts level
      pure ("\n" ++ strRepeat ind level ++ p ++ r)

def prettyEntries (ind : String) : EntrySeq → ℕ → Option String
  | .nil, _ => some ""
  | .cons key t ts, level => do
      let p ← prettyTag ind t level
      let r ← prettyEntries ind ts level
      pure ("\n" ++ strRepeat ind level ++ key ++ ": " ++ p ++ r)
end

mutual
/-- Well-formed trees in the sense of the spec: values within the range of
their wire format, string and collection lengths within the signed 16/32
bit length prefixes, list elements homogeneous (instances of the declared
class), no free-standing end tags. -/
def wfTag : Tag → Bool
  | .endT _ => false
  | .byte v => decide (-128 ≤ v ∧ v < 128)
  | .short v => decide (-32768 ≤ v ∧ v < 32768)
  | .int v => decide (-(2^31 : ℤ) ≤ v ∧ v < 2^31)
  | .long v => decide (-(2^63 : ℤ) ≤ v ∧ v < 2^63)
  | .float b => decide (b < 2^32)
  | .double b => decide (b < 2^64)
  | .byteArray vs =>
      decide (vs.length < 2^31) && vs.all fun v => decide (-128 ≤ v ∧ v < 128)
  | .string s => decide (s.length < 32768)
  | .list k elems => decide (seqLength elems < 2^31) && wfElems k elems
  | .compound es => wfEntries es
  | .intArray vs =>
      decide (vs.length < 2^31)
        && vs.all fun v => decide (-(2^31 : ℤ) ≤ v ∧ v < 2^31)
  | .longArray vs =>
      decide (vs.length < 2^31)
        && vs.all fun v => decide (-(2^63 : ℤ) ≤ v ∧ v < 2^63)
  | .shortArray vs =>
      decide (vs.length < 2^31) && vs.all fun v => decide (-32768 ≤ v ∧ v < 32768)
  | .floatArray vs =>
      decide (vs.length < 2^31) && vs.all fun b => decide (b < 2^32)
  | .ushortArray vs =>
      decide (vs.length < 2^31) && vs.all fun v => decide (0 ≤ v ∧ v < 65536)

def wfElems (k : TagKind) : TagSeq → Bool
  | .nil => true
  | .cons t ts => isInst t k && wfTag t && wfElems k ts

def wfEntries : EntrySeq → Bool
  | .nil => true
  | .cons key t ts => decide (key.length < 32768) && wfTag t && wfEntries ts
end

lemma writeIntBytes_isSome (le : Bool) (k : ℕ) (v : ℤ)
    (h1 : -(2^(8*k-1) : ℤ) ≤ v) (h2 : v < 2^(8*k-1)) :
    (writeIntBytes le k v).isSome = true := by
  rw [writeIntBytes, if_pos ⟨h1, h2⟩]
  rfl

lemma writeUIntBytes_isSome (le : Bool) (k : ℕ) (v : ℤ)
    (h1 : 0 ≤ v) (h2 : v < 2^(8*k)) :
    (writeUIntBytes le k v).isSome = true := by
  rw [writeUIntBytes, if_pos ⟨h1, h2⟩]
  rfl

lemma mapOpt_isSome {α β : Type} (f : α → Option β) (l : List α)
    (h : ∀ a ∈ l, (f a).isSome = true) : (mapOpt f l).isSome = true := by
  induction l with
  | nil => rfl
  | cons a t ih =>
      simp only [mapOpt]
      obtain ⟨b, hb⟩ := Option.isSome_iff_exists.mp (h a (by simp))
      rw [hb]
      obtain ⟨r, hr⟩ := Option.isSome_iff_exists.mp
        (ih fun x hx => h x (by simp [hx]))
      rw [hr]
      rfl

lemma writeArray_isSome (le : Bool) (k : ℕ) (u : Bool) (vs : List ℤ)
    (hl : (vs.length : ℤ) < 2^31)
    (hall : ∀ v ∈ vs,
      ((if u then writeUIntBytes le k v else writeIntBytes le k v)).isSome
        = true) :
    (writeArray le k u vs).isSome = true := by
  rw [writeArray]
  obtain ⟨lb, hlb⟩ := Option.isSome_iff_exists.mp
    (writeIntBytes_isSome le 4 (vs.length : ℤ) (by norm_num; omega)
      (by norm_num; omega))
  rw [hlb]
  obtain ⟨body, hbody⟩ := Option.isSome_iff_exists.mp (mapOpt_isSome _ _ hall)
  rw [hbody]
  rfl

lemma writeUtf8_isSome (le : Bool) (s : String) (h : s.length < 32768) :
    (writeUtf8 le s).isSome = true := by
  rw [writeUtf8]
  obtain ⟨lb, hlb⟩ := Option.isSome_iff_exists.mp
    (writeIntBytes_isSome le 2 (s.length : ℤ) (by norm_num; omega)
      (by norm_num; omega))
  rw [hlb]
  rfl

lemma typeByte_le (k : TagKind) : typeByte k ≤ 14 := by
  cases k <;> decide

mutual
theorem writeTag_isSome (le : Bool) : ∀ (t : Tag), wfTag t = true →
    (writeTag le t).isSome = true
  | .endT _, h => by simp [wfTag] at h
  | .byte v, h => by
      simp only [wfTag, decide_eq_true_eq] at h
      exact writeIntBytes_isSome le 1 v (by norm_num; omega) (by norm_num; omega)
  | .short v, h => by
      simp only [wfTag, decide_eq_true_eq] at h
      exact writeIntBytes_isSome le 2 v (by norm_num; omega) (by norm_num; omega)
  | .int v, h => by
      simp only [wfTag, decide_eq_true_eq] at h
      exact writeIntBytes_isSome le 4 v (by norm_num; omega) (by norm_num; omega)
  | .long v, h => by
      simp only [wfTag, decide_eq_true_eq] at h
      exact writeIntBytes_isSome le 8 v (by norm_num; omega) (by norm_num; omega)
  | .float b, h => rfl
  | .double b, h => rfl
  | .byteArray vs, h => by
      simp only [wfTag, Bool.and_eq_true, decide_eq_true_eq, List.all_eq_true] at h
      refine writeArray_isSome le 1 false vs (by omega) fun v hv => ?_
      have := h.2 v hv
      simp only [decide_eq_true_eq] at this
      exact writeIntBytes_isSome le 1 v (by norm_num; omega) (by norm_num; omega)
  | .string s, h => by
      simp only [wfTag, decide_eq_true_eq] at h
      exact writeUtf8_isSome le s h
  | .list k elems, h => by
      simp only [wfTag, Bool.and_eq_true, decide_eq_true_eq] at h
      rw [writeTag]
      obtain ⟨hd, hhd⟩ := Option.isSome_iff_exists.mp
        (writeIntBytes_isSome le 1 (typeByte k : ℤ)
          (by have := typeByte_le k; norm_num; omega)
          (by have := typeByte_le k; norm_num; omega))
      rw [hhd]
      obtain ⟨ln, hln⟩ := Option.isSome_iff_exists.mp
        (writeIntBytes_isSome le 4 (seqLength elems : ℤ)
          (by norm_num; omega) (by have := h.1; norm_num; omega))
      rw [hln]
      obtain ⟨body, hbody⟩ := Option.isSome_iff_exists.mp
        (writeElems_isSome le k elems h.2)
      rw [hbody]
      rfl
  | .compound es, h => by
      rw [writeTag]
      obtain ⟨body, hbody⟩ := Option.isSome_iff_exists.mp
        (writeEntries_isSome le es (by rw [wfTag] at h; exact h))
      rw [hbody]
      rfl
  | .intArray vs, h => by
      simp only [wfTag, Bool.and_eq_true, decide_eq_true_eq, List.all_eq_true] at h
      refine writeArray_isSome le 4 false vs (by omega) fun v hv => ?_
      have := h.2 v hv
      simp only [decide_eq_true_eq] at this
      exact writeIntBytes_isSome le 4 v (by norm_num; omega) (by norm_num; omega)
  | .longArray vs, h => by
      simp only [wfTag, Bool.and_eq_true, decide_eq_true_eq, List.all_eq_true] at h
      refine writeArray_isSome le 8 false vs (by omega) fun v hv => ?_
      have := h.2 v hv
      simp only [decide_eq_true_eq] at this
      exact writeIntBytes_isSome le 8 v (by norm_num; omega) (by norm_num; omega)
  | .shortArray vs, h => by
      simp only [wfTag, Bool.and_eq_true, decide_eq_true_eq, List.all_eq_true] at h
      refine writeArray_isSome le 2 false vs (by omega) fun v hv => ?_
      have := h.2 v hv
      simp only [decide_eq_true_eq] at this
      exact writeIntBytes_isSome le 2 v (by norm_num; omega) (by norm_num; omega)
  | .floatArray vs, h => by
      simp only [wfTag, Bool.and_eq_true, decide_eq_true_eq] at h
      rw [writeTag]
      obtain ⟨ln, hln⟩ := Option.isSome_iff_exists.mp
        (writeIntBytes_isSome le 4 (vs.length : ℤ)
          (by norm_num; omega) (by have := h.1; norm_num; omega))
      rw [hln]
      rfl
  | .ushortArray vs, h => by
      simp only [wfTag, Bool.and_eq_true, decide_eq_true_eq, List.all_eq_true] at h
      refine writeArray_isSome le 2 true vs (by omega) fun v hv => ?_
      have := h.2 v hv
      simp only [decide_eq_true_eq] at this
      rw [if_pos rfl]
      exact writeUIntBytes_isSome le 2 v (by omega) (by norm_num; omega)

theorem writeElems_isSome (le : Bool) (k : TagKind) : ∀ (ts : TagSeq),
    wfElems k ts = true → (writeElems le k ts).isSome = true
  | .nil, _ => rfl
  | .cons t ts, h => by
      simp only [wfElems, Bool.and_eq_true] at h
      obtain ⟨⟨hinst, hwf⟩, hrest⟩ := h
      simp only [writeElems]
      rw [if_pos hinst]
      obtain ⟨b, hb⟩ := Option.isSome_iff_exists.mp (writeTag_isSome le t hwf)
      rw [hb]
      obtain ⟨r, hr⟩ := Option.isSome_iff_exists.mp
        (writeElems_isSome le k ts hrest)
      rw [hr]
      rfl

theorem writeEntries_isSome (le : Bool) : ∀ (es : EntrySeq),
    wfEntries es = true → (writeEntries le es).isSome = true
  | .nil, _ => rfl
  | .cons key t ts, h => by
      simp only [wfEntries, Bool.and_eq_true, decide_eq_true_eq] at h
      obtain ⟨⟨hkey, hwf⟩, hrest⟩ := h
      simp only [writeEntries]
      obtain ⟨tb, htb⟩ := Option.isSome_iff_exists.mp
        (writeIntBytes_isSome le 1 (typeByte (kindOf t) : ℤ)
          (by have := typeByte_le (kindOf t); norm_num; omega)
          (by have := typeByte_le (kindOf t); norm_num; omega))
      rw [htb]
      obtain ⟨nb, hnb⟩ := Option.isSome_iff_exists.mp (writeUtf8_isSome le key hkey)
      rw [hnb]
      obtain ⟨vb, hvb⟩ := Option.isSome_iff_exists.mp (writeTag_isSome le t hwf)
      rw [hvb]
      obtain ⟨r, hr⟩ := Option.isSome_iff_exists.mp
        (writeEntries_isSome le ts hrest)
      rw [hr]
      rfl
end

/-- C1 (code bug): round-trip fails on well-formed trees.  A compound
holding NBTTagUShortArray([65535]) is written with the inherited type byte
0x0D and the unsigned format, but the reader dispatches 0x0D to the signed
NBTTagShortArray, so decode(encode(v)) comes back as a different variant
holding [-1].  A compound holding the one-character non-ASCII string é
writes the character count 1 as the length prefix while the reader treats
it as a byte count, truncating the two-byte UTF-8 payload and making the
strict decode raise. -/
theorem c1_roundtrip_bug :
    (∃ bs : List ℕ,
      writeTag false (Tag.compound (.cons "a" (Tag.ushortArray [65535]) .nil))
          = some bs
      ∧ readTagF false (bs.length + 1) .kCompound bs
          = some (Tag.compound (.cons "a" (Tag.shortArray [-1]) .nil), [])
      ∧ Tag.compound (.cons "a" (Tag.shortArray [-1]) .nil)
          ≠ Tag.compound (.cons "a" (Tag.ushortArray [65535]) .nil))
    ∧ (∃ bs : List ℕ,
      writeTag false (Tag.compound (.cons "a" (Tag.string "é") .nil)) = some bs
      ∧ readTagF false (bs.length + 1) .kCompound bs = none)
    ∧ wfTag (Tag.compound (.cons "a" (Tag.ushortArray [65535]) .nil)) = true
    ∧ wfTag (Tag.compound (.cons "a" (Tag.string "é") .nil)) = true := by
  refine ⟨⟨[13, 0, 1, 97, 0, 0, 0, 1, 255, 255, 0], rfl, rfl, by simp⟩,
    ⟨[8, 0, 1, 97, 0, 1, 195, 169, 0], rfl, rfl⟩, by decide, by decide⟩

/-- C8: encode is a deterministic, total function over well-formed trees
(no exception escapes on any well-formed value, for either endianness). -/
theorem c8_encode (le : Bool) (t : Tag) (h : wfTag t = true) :
    (writeTag le t).isSome = true :=
  writeTag_isSome le t h

/-- Witness for c8_encode at a concrete compound. -/
theorem c8_encode_witness :
    wfTag (Tag.compound (.cons "k" (Tag.int 3) .nil)) = true
    ∧ (writeTag false (Tag.compound (.cons "k" (Tag.int 3) .nil))).isSome
        = true :=
  ⟨by decide, c8_encode false (Tag.compound (.cons "k" (Tag.int 3) .nil))
    (by decide)⟩

/-- C8 (counterexample): no FormatError exists in nbt.py.  Encoding the
non-homogeneous list whose declared element class is NBTTagList but whose
element is NBTTagInt(5) succeeds silently, writing an empty-list header
that carries the element kind instead of the element; with a declared
scalar class the write of the wrapped tag raises struct.error (none), not
a FormatError. -/
theorem c8_counterexample :
    writeTag false (Tag.list .kList (.cons (Tag.int 5) .nil))
        = some [9, 0, 0, 0, 1, 3, 0, 0, 0, 0]
    ∧ writeTag false (Tag.list .kInt (.cons (Tag.short 5) .nil)) = none := by
  exact ⟨rfl, rfl⟩

/-- C9 (counterexample): NBTTagInt does not override pretty, so the count
entry of the compound of the claim renders through repr as NBTTagInt(3),
not as the bare number 3 the claim expects. -/
theorem c9_counterexample :
    prettyTag "  " (Tag.compound (.cons "id" (Tag.string "mesh0")
        (.cons "count" (Tag.int 3) .nil))) 0
      = some "\x7b 2 entries\n  id: \x27mesh0\x27\n  count: NBTTagInt(3)\n\x7d"
    ∧ prettyTag "  " (Tag.compound (.cons "id" (Tag.string "mesh0")
        (.cons "count" (Tag.int 3) .nil))) 0
      ≠ some "\x7b 2 entries\n  id: \x27mesh0\x27\n  count: 3\n\x7d" := by
  exact ⟨rfl, by decide⟩

/-- C9 (amended): encoding the compound of the scenario and decoding the
bytes yields the identical tree, id and count values unchanged; the pretty
print is settled by the counterexample. -/
theorem c9_compound_scenario :
    ∃ bs : List ℕ,
      writeTag false (Tag.compound (.cons "id" (Tag.string "mesh0")
          (.cons "count" (Tag.int 3) .nil))) = some bs
      ∧ readTagF false (bs.length + 1) .kCompound bs
          = some (Tag.compound (.cons "id" (Tag.string "mesh0")
              (.cons "count" (Tag.int 3) .nil)), []) := by
  refine ⟨[8, 0, 2, 105, 100, 0, 5, 109, 101, 115, 104, 48,
    3, 0, 5, 99, 111, 117, 110, 116, 0, 0, 0, 3, 0], rfl, rfl⟩

end QAMExporter
